import Mathlib

/-!
Verification of the poptrie builder (`src/build_bin.py`) against its
natural-language specification.

The Python builder is shallowly embedded as follows:

* `Node` models the build-time tree node (`class Node`, build_bin.py:7-13):
  an insertion-ordered association list models the Python `dict`
  `children` (byte → Node), `is_leaf` the boolean flag, and `value : Option Nat`
  the tag (`None` at construction).
* `addSteps` / `addParsed` model `BinBuilder.add_cidr` (build_bin.py:25-69)
  after CIDR parsing: Python's in-place mutation becomes state passing, and
  the outcome (normal return, early return on a covering leaf, silent parse
  skip, raised `ValueError`, raised `IndexError`) is made explicit in
  `AddOutcome`.  On a raised `IndexError` the partially mutated tree is kept,
  exactly as the Python tree object would be.
* Python integer quirks are modelled faithfully: `mask >> 3` is the floor
  division `Int.fdiv mask 8`, `mask & 7` is `Int.emod mask 8`, and
  `ip_bytes[steps]` uses Python semantics for negative indices (`pyIndex`).
* `pruneNode`/`pruneList` model `BinBuilder._prune` (build_bin.py:71-97).
* `serAll`/`saveBytes` model `BinBuilder.save` (build_bin.py:99-163).
* CIDR strings are modelled as `List Char`; `splitOnChar`, `pyIntChars`
  model `str.split("/")` and `int(...)` (sign and decimal digits; the
  rarely relevant whitespace/underscore tolerance of Python's `int` is not
  modelled).  `socket.inet_pton` is an external library call and is kept as
  a parameter `pton`; a concrete IPv4 instance is supplied for witnesses.
-/

namespace Poptrie

/-- Build-time tree node (build_bin.py:7-13).  `children` is the Python
dict as an insertion-ordered association list, `is_leaf` the leaf flag,
`value` the 16-bit tag (`none` models Python `None`). -/
inductive Node where
  | mk : List (Nat × Node) → Bool → Option Nat → Node

/-- The `children` field of a node. -/
def Node.children : Node → List (Nat × Node)
  | .mk cs _ _ => cs

/-- The `is_leaf` field of a node. -/
def Node.is_leaf : Node → Bool
  | .mk _ l _ => l

/-- The `value` field of a node. -/
def Node.value : Node → Option Nat
  | .mk _ _ v => v

/-- A fresh node, as produced by `Node()` in Python:
no children, not a leaf, value `None`. -/
def emptyNode : Node := .mk [] false none

/-- Python dict read `children.get(byte)`: first (and, with nodup keys,
only) binding of the key. -/
def dictFind (k : Nat) : List (Nat × Node) → Option Node
  | [] => none
  | (k', v) :: rest => if k' = k then some v else dictFind k rest

/-- Python dict write `children[byte] = node`: replace an existing binding
in place, otherwise append at the end (insertion order). -/
def dictInsert (k : Nat) (v : Node) : List (Nat × Node) → List (Nat × Node)
  | [] => [(k, v)]
  | (k', v') :: rest =>
      if k' = k then (k, v) :: rest else (k', v') :: dictInsert k v rest

/-- Python sequence indexing `l[i]` on a bytes object: non-negative indices
must be in range, negative indices count from the end, anything else raises
`IndexError` (modelled by `none`). -/
def pyIndex (l : List Nat) (i : Int) : Option Nat :=
  if 0 ≤ i then l.get? i.toNat
  else if (-i).toNat ≤ l.length then l.get? (l.length - (-i).toNat)
  else none

/-- How one `add_cidr` call ends: `done` — normal return having modified the
tree; `covered` — early return because the descent met a leaf
(build_bin.py:44-45 and 58-59); `skipped` — silent return on a parse
failure (build_bin.py:35-36); `valueError` — the raised `ValueError` for an
out-of-range tag (build_bin.py:27-28); `indexError` — a raised
`IndexError` from `ip_bytes[...]`. -/
inductive AddOutcome where
  | done | covered | skipped | valueError | indexError
deriving DecidableEq

/-- The loop `for b in range(start_byte, end_byte + 1)` of add_cidr
(build_bin.py:64-69): insert `cnt` fresh leaf nodes carrying `value` at the
consecutive byte keys `lo, lo+1, ...`. -/
def rangeInsert (lo cnt value : Nat) (cs : List (Nat × Node)) : List (Nat × Node) :=
  match cnt with
  | 0 => cs
  | c + 1 => rangeInsert (lo + 1) c value (dictInsert lo (.mk [] true (some value)) cs)

/-- Step 2 of add_cidr, "处理末尾位" (build_bin.py:52-69): the node reached
after the byte-wise descent.  `steps` is the Python `mask >> 3` (used to
index `ip_bytes[steps]`, possibly negatively), `remaining` is `mask & 7`. -/
def addTail (ipBytes : List Nat) (value : Nat) (steps : Int) (remaining : Nat)
    (node : Node) : Node × AddOutcome :=
  if remaining = 0 then
    (.mk [] true (some value), .done)
  else if node.is_leaf then (node, .covered)
  else
    match pyIndex ipBytes steps with
    | none => (node, .indexError)
    | some byte =>
        let shift := 8 - remaining
        let lo := byte &&& (255 <<< shift)
        let hi := lo ||| (255 >>> remaining)
        (.mk (rangeInsert lo (hi + 1 - lo) value node.children) node.is_leaf node.value, .done)

/-- Step 1 of add_cidr, the byte-wise descent (build_bin.py:43-50), followed
by `addTail`.  `k` is the number of loop iterations still to run, `i` the
current loop index; the top-level call uses `k = steps.toNat` (the number of
iterations of `range(steps)`) and `i = 0`.  A missing child is created as a
fresh `Node()`; on an early return (`covered`/`indexError`) the children
created so far persist, as they do in the mutated Python tree. -/
def addSteps (ipBytes : List Nat) (value : Nat) (steps : Int) (remaining : Nat) :
    Nat → Nat → Node → Node × AddOutcome
  | 0, _, node => addTail ipBytes value steps remaining node
  | k + 1, i, node =>
      if node.is_leaf then (node, .covered)
      else
        match ipBytes.get? i with
        | none => (node, .indexError)
        | some byte =>
            let child := (dictFind byte node.children).getD emptyNode
            let r := addSteps ipBytes value steps remaining k (i + 1) child
            (.mk (dictInsert byte r.1 node.children) node.is_leaf node.value, r.2)

/-- `add_cidr` after the tag check and the CIDR parse (build_bin.py:38-69):
`steps = mask >> 3` and `remaining = mask & 7` with Python's arithmetic
shift and non-negative remainder. -/
def addCore (root : Node) (ipBytes : List Nat) (mask : Int) (value : Nat) :
    Node × AddOutcome :=
  let steps : Int := Int.fdiv mask 8
  let remaining : Nat := (Int.emod mask 8).toNat
  addSteps ipBytes value steps remaining steps.toNat 0 root

/-- `BinBuilder.add_cidr` (build_bin.py:25-69) applied to an
already-parsed `(ip_bytes, mask)` pair: the tag range check
(build_bin.py:27-28) happens first. -/
def addParsed (root : Node) (ipBytes : List Nat) (mask : Int) (value : Nat) :
    Node × AddOutcome :=
  if 1 ≤ value ∧ value ≤ 65535 then addCore root ipBytes mask value
  else (root, .valueError)

/-- Python `s.split(sep)` for a one-character separator, on strings
modelled as `List Char` (so `[] ↦ [[]]`, matching `"".split("/") == [""]`). -/
def splitOnChar (c : Char) : List Char → List (List Char)
  | [] => [[]]
  | a :: rest =>
      let r := splitOnChar c rest
      if a = c then [] :: r
      else
        match r with
        | [] => [[a]]
        | h :: t => (a :: h) :: t

/-- A non-empty all-digit character list read as a decimal number,
otherwise `none`. -/
def digitsToNat (cs : List Char) : Option Nat :=
  if cs ≠ [] ∧ cs.all (fun c => c.isDigit) then
    some (cs.foldl (fun a c => 10 * a + (c.toNat - 48)) 0)
  else none

/-- Python `int(mask_part)`: optional sign followed by decimal digits
(whitespace/underscore tolerance of Python's `int` is not modelled; no
claim depends on it). -/
def pyIntChars (cs : List Char) : Option Int :=
  match cs with
  | '-' :: rest => (digitsToNat rest).map (fun n => -(n : Int))
  | '+' :: rest => (digitsToNat rest).map (fun n => (n : Int))
  | _ => (digitsToNat cs).map (fun n => (n : Int))

/-- The parsing prefix of add_cidr (build_bin.py:30-36):
`ip_part, mask_part = cidr.split("/")` (exactly two parts, otherwise the
caught unpacking `ValueError`), `mask = int(mask_part)`, and
`inet_pton(family, ip_part)` with the family chosen by `":" in ip_part`.
The external `socket.inet_pton` is the parameter `pton : isV6 → chars →
packed bytes`; any of the three failures yields `none` (the caught
exception). -/
def parseCidr (pton : Bool → List Char → Option (List Nat)) (cidr : List Char) :
    Option (List Nat × Int) :=
  match splitOnChar '/' cidr with
  | [ipPart, maskPart] =>
      match pyIntChars maskPart with
      | none => none
      | some mask =>
          match pton (ipPart.contains ':') ipPart with
          | none => none
          | some bytes => some (bytes, mask)
  | _ => none

/-- `BinBuilder.add_cidr` (build_bin.py:25-69) on a CIDR string: tag range
check, parse (silent `skipped` on failure), then the insertion. -/
def add_cidr (pton : Bool → List Char → Option (List Nat)) (root : Node)
    (cidr : List Char) (value : Nat) : Node × AddOutcome :=
  if 1 ≤ value ∧ value ≤ 65535 then
    match parseCidr pton cidr with
    | none => (root, .skipped)
    | some (bytes, mask) => addCore root bytes mask value
  else (root, .valueError)

/-- Modelled from the spec (§4.1 address parser; the concrete parser is
`socket.inet_pton(AF_INET, ...)`, a library routine outside the
repository): dotted-quad IPv4 text to 4 packed bytes — exactly four parts
separated by dots, each one to three decimal digits with value at most
255.  Used only to instantiate the `pton` parameter at concrete witness
inputs. -/
def ptonV4 (isV6 : Bool) (cs : List Char) : Option (List Nat) :=
  if isV6 then none
  else
    let parts := (splitOnChar '.' cs).map digitsToNat
    match parts with
    | [some a, some b, some c, some d] =>
        if a ≤ 255 ∧ b ≤ 255 ∧ c ≤ 255 ∧ d ≤ 255 then some [a, b, c, d] else none
    | _ => none

/-- The byte-wise walk of the in-memory tree that `lookup` semantics are
stated with: follow one byte of the key per level while a child exists and
return the value of the deepest leaf met on the path (`best` is the value
of the deepest leaf met so far, `0` at the root if none). -/
def treeLookup : Node → List Nat → Nat → Nat
  | node, [], best => if node.is_leaf then node.value.getD 0 else best
  | node, b :: rest, best =>
      let best' := if node.is_leaf then node.value.getD 0 else best
      match dictFind b node.children with
      | none => best'
      | some child => treeLookup child rest best'

/-- The node reached from `n` by following the child map along `path`,
if every step exists. -/
def getNode : Node → List Nat → Option Node
  | n, [] => some n
  | n, b :: rest =>
      match dictFind b n.children with
      | none => none
      | some c => getNode c rest

/-- The node reached from `n` by following `path`, materialising a fresh
`Node()` for every missing step — the node the add_cidr descent ends on. -/
def getPathD : Node → List Nat → Node
  | n, [] => n
  | n, b :: rest => getPathD ((dictFind b n.children).getD emptyNode) rest

/-- Rebuild `n` with `f` applied to the node reached by following `path`,
materialising fresh `Node()`s for missing steps — the functional form of
the add_cidr descent's in-place mutation. -/
def updatePath : List Nat → (Node → Node) → Node → Node
  | [], f, n => f n
  | b :: rest, f, n =>
      let child := (dictFind b n.children).getD emptyNode
      .mk (dictInsert b (updatePath rest f child) n.children) n.is_leaf n.value

mutual
/-- `BinBuilder._prune` (build_bin.py:71-97), returning the pruned node
together with the boolean result of `_prune` (whether the node is, or
became, a leaf).  A node without children returns `is_leaf` unchanged;
otherwise the children are pruned in insertion order while the running
state `(all_children_are_leaf, first_value)` is threaded through, and the
node collapses to a leaf exactly when `all_children_are_leaf` survived and
`first_value` is not `None`. -/
def pruneNode : Node → Node × Bool
  | .mk cs isLeaf value =>
    if cs.isEmpty then (.mk cs isLeaf value, isLeaf)
    else
      let r := pruneList cs (cs.length == 256) none
      if r.2.1 && r.2.2.isSome then (.mk [] true r.2.2, true)
      else (.mk r.1 isLeaf value, isLeaf)

/-- The child loop of `_prune` (build_bin.py:80-89): prune each child in
insertion order, updating `all_children_are_leaf` (initially
`len(children) == 256`) and `first_value` (initially `None`) exactly as
the Python conditionals do. -/
def pruneList : List (Nat × Node) → Bool → Option Nat →
    List (Nat × Node) × Bool × Option Nat
  | [], all, fv => ([], all, fv)
  | (b, child) :: rest, all, fv =>
      let pc := pruneNode child
      let st :=
        if !pc.2 then (false, fv)
        else if all then
          match fv with
          | none => (all, pc.1.value)
          | some v => if pc.1.value ≠ some v then (false, fv) else (all, fv)
        else (all, fv)
      let rr := pruneList rest st.1 st.2
      ((b, pc.1) :: rr.1, rr.2)
end

mutual
/-- Number of nodes in a tree (a termination measure for the breadth-first
serialisation; not part of the Python source). -/
def nodeSize : Node → Nat
  | .mk cs _ _ => 1 + listSize cs

/-- Number of nodes hanging off a children list. -/
def listSize : List (Nat × Node) → Nat
  | [] => 0
  | (_, c) :: rest => 1 + nodeSize c + listSize rest
end

/-- Total node count of a BFS layer. -/
def layerSize : List Node → Nat
  | [] => 0
  | n :: rest => nodeSize n + layerSize rest

/-- `sorted(node.children.keys())` together with the dict reads of the
serialisation loop (build_bin.py:118-123): the children in ascending key
order. -/
def sortedChildren (cs : List (Nat × Node)) : List (Nat × Node) :=
  List.insertionSort (fun a b => a.1 ≤ b.1) cs

/-- `bit_pos = 255 - k` as a 256-bit integer bit (build_bin.py:125).
Keys are bytes (`k < 256`) in every tree the builder constructs; Python
would raise on larger keys, where the truncated subtraction here differs. -/
def bmBit (k : Nat) : Nat := 1 <<< (255 - k)

/-- `child_bm_int`: the OR of `bmBit k` over children that themselves have
children (build_bin.py:131-132). -/
def childMask : List (Nat × Node) → Nat
  | [] => 0
  | (k, c) :: rest => (if c.children.isEmpty then 0 else bmBit k) ||| childMask rest

/-- `leaf_bm_int`: the OR of `bmBit k` over leaf children
(build_bin.py:127-128). -/
def leafMask : List (Nat × Node) → Nat
  | [] => 0
  | (k, c) :: rest => (if c.is_leaf then bmBit k else 0) ||| leafMask rest

/-- `local_leaf_values` (build_bin.py:127-129): the values of the leaf
children, in the traversal order of `cs`. -/
def leafVals (cs : List (Nat × Node)) : List (Option Nat) :=
  (cs.filter (fun kc => kc.2.is_leaf)).map (fun kc => kc.2.value)

/-- `nodes_with_children` (build_bin.py:131-133): the children that have
children, in the traversal order of `cs`. -/
def innerChildren (cs : List (Nat × Node)) : List Node :=
  (cs.filter (fun kc => !kc.2.children.isEmpty)).map (fun kc => kc.2)

/-- The running state of the serialisation loop:
`off` is `next_layer_start_offset`, `vlen` is `len(values)`. -/
structure SerState where
  off : Nat
  vlen : Nat

/-- One serialised 72-byte node record (build_bin.py:17), kept with the
in-memory node it was emitted for. -/
structure NodeRec where
  node : Node
  childBM : Nat
  leafBM : Nat
  jump : Nat
  base : Nat

/-- The body of the `for node in current_layer` loop (build_bin.py:113-148)
for one node: its record, the updated running state, and its contribution
to the next BFS layer. -/
def buildRec (n : Node) (st : SerState) : NodeRec × SerState × List Node :=
  let cs := sortedChildren n.children
  let lv := leafVals cs
  let nwc := innerChildren cs
  let jump := if nwc.isEmpty then 0 else st.off
  let off' := if nwc.isEmpty then st.off else st.off + 72 * nwc.length
  (⟨n, childMask cs, leafMask cs, jump, st.vlen⟩, ⟨off', st.vlen + lv.length⟩, nwc)

/-- One pass of the layer loop: records for every node of the layer, the
final running state, and the concatenated next layer. -/
def serLayer : List Node → SerState → List NodeRec × SerState × List Node
  | [], st => ([], st, [])
  | n :: rest, st =>
      let r := buildRec n st
      let rr := serLayer rest r.2.1
      (r.1 :: rr.1, rr.2.1, r.2.2 ++ rr.2.2)

theorem layerSize_append (a b : List Node) :
    layerSize (a ++ b) = layerSize a + layerSize b := by
  induction a with
  | nil => simp [layerSize]
  | cons n rest ih => simp [layerSize, ih]; omega

theorem listSize_eq_sum (l : List (Nat × Node)) :
    listSize l = (l.map (fun kc => 1 + nodeSize kc.2)).sum := by
  induction l with
  | nil => rfl
  | cons a rest ih => cases a; simp [listSize, ih]

theorem listSize_perm {l₁ l₂ : List (Nat × Node)} (h : l₁.Perm l₂) :
    listSize l₁ = listSize l₂ := by
  rw [listSize_eq_sum, listSize_eq_sum]
  exact (h.map _).sum_eq

theorem layerSize_innerChildren (cs : List (Nat × Node)) :
    layerSize (innerChildren cs) ≤ listSize cs := by
  induction cs with
  | nil => simp [innerChildren, layerSize, listSize]
  | cons a rest ih =>
    obtain ⟨k, c⟩ := a
    by_cases h : c.children.isEmpty = true <;>
      simp [innerChildren, List.filter, h, listSize, layerSize] at *
    · omega
    · omega

theorem buildRec_next_size (n : Node) (st : SerState) :
    layerSize (buildRec n st).2.2 + 1 ≤ nodeSize n := by
  obtain ⟨cs, l, v⟩ := n
  have h1 : layerSize (innerChildren (sortedChildren cs)) ≤ listSize (sortedChildren cs) :=
    layerSize_innerChildren _
  have h2 : listSize (sortedChildren cs) = listSize cs :=
    listSize_perm (List.perm_insertionSort _ _)
  simp only [buildRec, nodeSize, Node.children]
  omega

theorem serLayer_next_size (l : List Node) (st : SerState) :
    layerSize (serLayer l st).2.2 + l.length ≤ layerSize l := by
  induction l generalizing st with
  | nil => simp [serLayer, layerSize]
  | cons n rest ih =>
    have h1 := buildRec_next_size n st
    have h2 := ih (buildRec n st).2.1
    simp only [serLayer, layerSize_append, layerSize, List.length_cons]
    omega

/-- The `while current_layer` loop of `save` (build_bin.py:111-150): the
records of all layers, breadth first. -/
def serAll : List Node → SerState → List NodeRec
  | [], _ => []
  | n :: rest, st =>
      let r := serLayer (n :: rest) st
      r.1 ++ serAll r.2.2 r.2.1
termination_by layer _ => layerSize layer
decreasing_by
  have h := serLayer_next_size (n :: rest) st
  simp only [List.length_cons] at h
  simp only [layerSize] at *
  omega

/-- `x.to_bytes(len, "big")` (build_bin.py:136-137). -/
def toBytesBE (len x : Nat) : List Nat :=
  (List.range len).map (fun i => (x >>> (8 * (len - 1 - i))) % 256)

/-- One little-endian u32 of `struct.pack("<II", ...)` / the header. -/
def u32le (x : Nat) : List Nat :=
  [x % 256, (x >>> 8) % 256, (x >>> 16) % 256, (x >>> 24) % 256]

/-- One little-endian u16 of the value table (build_bin.py:161-163). -/
def u16le (x : Nat) : List Nat := [x % 256, (x >>> 8) % 256]

/-- The 72 bytes appended for one record (build_bin.py:136-148): both
bitmaps as 32-byte big-endian integers, then `struct.pack("<II",
jump_offset, base_index)`. -/
def encodeRec (r : NodeRec) : List Nat :=
  toBytesBE 32 r.childBM ++ toBytesBE 32 r.leafBM ++ u32le r.jump ++ u32le r.base

/-- Concatenation of byte chunks. -/
def flatBytes : List (List Nat) → List Nat
  | [] => []
  | b :: rest => b ++ flatBytes rest

/-- The global value table: each record contributes its
`local_leaf_values`, in record order (build_bin.py:139-140). -/
def flatVals : List NodeRec → List (Option Nat)
  | [] => []
  | r :: rest => leafVals (sortedChildren r.node.children) ++ flatVals rest

/-- The records' `base_index` fields form the running sum of the emitted
leaf-value counts, starting from `v` — the bookkeeping `save` maintains
through `base_index = len(values)` (build_bin.py:139). -/
def basesAligned : List NodeRec → Nat → Prop
  | [], _ => True
  | r :: rest, v =>
      r.base = v ∧
        basesAligned rest (v + (leafVals (sortedChildren r.node.children)).length)

/-- The record array for a (already pruned) root: the loop starts with
`current_layer = [root]` and `next_layer_start_offset = HEADER_SIZE +
1 * NODE_SIZE` (build_bin.py:106-108). -/
def recordsOf (root : Node) : List NodeRec := serAll [root] ⟨16 + 72, 0⟩

/-- The records `save` emits for builder state `t`: `save` prunes first
(build_bin.py:102). -/
def saveRecords (t : Node) : List NodeRec := recordsOf (pruneNode t).1

/-- The value table `save` emits for builder state `t`. -/
def saveValues (t : Node) : List (Option Nat) := flatVals (saveRecords t)

/-- `struct.pack("<4sIII", b"PTV2", node_count, values_count, 0)`
(build_bin.py:155): the magic bytes are `P`, `T`, `V`, `2`. -/
def headerBytes (nodeCount valCount : Nat) : List Nat :=
  [80, 84, 86, 50] ++ u32le nodeCount ++ u32le valCount ++ u32le 0

/-- The full artifact `save` writes (build_bin.py:99-163): header with
`node_count = len(final_data) // 72` (the record count) and
`values_count`, the record array, then the value table as packed
little-endian u16 (a value of `None` would make `struct.pack` raise; in
every builder-reachable tree all stored values are `some`, written here as
`getD 0`). -/
def saveBytes (t : Node) : List Nat :=
  let recs := saveRecords t
  let vals := saveValues t
  headerBytes recs.length vals.length ++ flatBytes (recs.map encodeRec) ++
    flatBytes (vals.map (fun v => u16le (v.getD 0)))

/-- Set-bit count of a natural number. -/
def popCnt (n : Nat) : Nat := (Nat.bits n).count true

/-- Modelled from the spec: the reader's lookup procedure (spec §4.5; the
concrete reader is the native `poptrie` module, which is not part of this
repository).  The node at byte offset `off` is record `(off - 16) / 72`;
starting from the root record (index 0) and `best = 0`, each key byte `b`
tests bit `255 - b` of both bitmaps, replaces `best` by the value-table
entry at `leaf_base_index + leaf_rank` on a leaf hit (rank = popcount of
the bits strictly above the tested bit), and follows
`child_offset + 72 * child_rank` on a child hit, else stops. -/
def readerLookup (recs : List NodeRec) (vals : List (Option Nat)) :
    Nat → List Nat → Nat → Nat
  | _, [], best => best
  | idx, b :: rest, best =>
      match recs.get? idx with
      | none => best
      | some r =>
          let bit := 255 - b
          let best' :=
            if r.leafBM.testBit bit then
              match vals.get? (r.base + popCnt (r.leafBM >>> (bit + 1))) with
              | some (some v) => v
              | _ => 0
            else best
          if r.childBM.testBit bit then
            readerLookup recs vals ((r.jump + 72 * popCnt (r.childBM >>> (bit + 1)) - 16) / 72)
              rest best'
          else best'

mutual
/-- Invariant I1 of the spec, exactly as stated there: every node with
`is_leaf` true has an empty children mapping. -/
def inv1Node : Node → Bool
  | .mk cs isLeaf _ => ((!isLeaf) || cs.isEmpty) && inv1List cs

/-- `inv1Node` over a children list. -/
def inv1List : List (Nat × Node) → Bool
  | [] => true
  | (_, c) :: rest => inv1Node c && inv1List rest
end

/-- The keys of a children list. -/
def keysOf (cs : List (Nat × Node)) : List Nat := cs.map (fun kc => kc.1)

/-- No duplicate keys (a Python dict cannot have any). -/
def nodupKeys : List (Nat × Node) → Bool
  | [] => true
  | (k, _) :: rest => (!(keysOf rest).contains k) && nodupKeys rest

/-- All keys are bytes. -/
def bytesKeys : List (Nat × Node) → Bool
  | [] => true
  | (k, _) :: rest => decide (k < 256) && bytesKeys rest

mutual
/-- The well-formedness every builder-reachable tree enjoys: I1 plus —
leaves carry a value (never Python `None`), keys are distinct (dict), and
keys are bytes; recursively at every node. -/
def invNode : Node → Bool
  | .mk cs isLeaf value =>
    ((!isLeaf) || (cs.isEmpty && value.isSome)) && nodupKeys cs && bytesKeys cs &&
      invList cs

/-- `invNode` over a children list. -/
def invList : List (Nat × Node) → Bool
  | [] => true
  | (_, c) :: rest => invNode c && invList rest
end

mutual
/-- Every node of the tree lies at depth at most `d` (the root at depth
`0`); in particular a node with `heightLE n 0` has no children. -/
def heightLE : Node → Nat → Bool
  | .mk cs _ _, 0 => cs.isEmpty
  | .mk cs _ _, d + 1 => heightLEList cs d

/-- `heightLE` over a children list. -/
def heightLEList : List (Nat × Node) → Nat → Bool
  | [], _ => true
  | (_, c) :: rest, d => heightLE c d && heightLEList rest d
end

/-- One parsed `add_cidr` argument triple. -/
structure AddOp where
  ipBytes : List Nat
  mask : Int
  value : Nat

/-- What `socket.inet_pton` guarantees about the packed address it hands to
the insertion loop: 4 or 16 bytes, each below 256. -/
def WFOp (op : AddOp) : Prop :=
  (op.ipBytes.length = 4 ∨ op.ipBytes.length = 16) ∧ ∀ b ∈ op.ipBytes, b < 256

/-- The builder state after a sequence of (successfully parsed) `add_cidr`
calls, starting from the fresh `BinBuilder` root. -/
def buildOps (ops : List AddOp) : Node :=
  ops.foldl (fun t op => (addParsed t op.ipBytes op.mask op.value).1) emptyNode

/-- Trees an actual `BinBuilder` can hold: produced by some sequence of
`add_cidr` calls whose parsed addresses came from `inet_pton`. -/
def Reachable (t : Node) : Prop :=
  ∃ ops : List AddOp, (∀ op ∈ ops, WFOp op) ∧ buildOps ops = t

/-- `q` is a (not necessarily proper) prefix of `p`. -/
def IsPre (q p : List Nat) : Prop := ∃ r, q ++ r = p

/-- The mutation `add_cidr` applies to the node reached by the descent in
the non-byte-aligned case (build_bin.py:60-69), as a function of the tail
byte `tb = ip_bytes[steps]`: replace the children in the byte range
`[lo, hi]` by fresh leaves carrying `value`. -/
def tailFun (tb remaining value : Nat) (n : Node) : Node :=
  .mk (rangeInsert (tb &&& (255 <<< (8 - remaining)))
    (((tb &&& (255 <<< (8 - remaining))) ||| (255 >>> remaining)) + 1 -
      (tb &&& (255 <<< (8 - remaining)))) value n.children) n.is_leaf n.value

mutual
/-- Canonical form of a tree: every children mapping rewritten in
ascending key order, recursively.  Two trees have the same canonical form
exactly when they carry the same children maps extensionally, i.e. when
they differ at most in the insertion order inside each node's dict — the
quantity claim C9 says the serialised artifact must not depend on. -/
def canonNode : Node → Node
  | .mk cs isLeaf value => .mk (sortedChildren (canonList cs)) isLeaf value

/-- `canonNode` applied to every child. -/
def canonList : List (Nat × Node) → List (Nat × Node)
  | [] => []
  | (k, c) :: rest => (k, canonNode c) :: canonList rest
end

/-- `canonNode` applied to the node a record was emitted for; the four
serialised fields are untouched. -/
def canonRec (r : NodeRec) : NodeRec :=
  ⟨canonNode r.node, r.childBM, r.leafBM, r.jump, r.base⟩

/-! ### Association-list (Python dict) lemmas -/

@[simp] theorem children_mk (cs : List (Nat × Node)) (l : Bool) (v : Option Nat) :
    (Node.mk cs l v).children = cs := rfl

@[simp] theorem is_leaf_mk (cs : List (Nat × Node)) (l : Bool) (v : Option Nat) :
    (Node.mk cs l v).is_leaf = l := rfl

@[simp] theorem value_mk (cs : List (Nat × Node)) (l : Bool) (v : Option Nat) :
    (Node.mk cs l v).value = v := rfl

theorem dictFind_insert_self (k : Nat) (v : Node) (cs : List (Nat × Node)) :
    dictFind k (dictInsert k v cs) = some v := by
  induction cs with
  | nil => simp [dictInsert, dictFind]
  | cons a rest ih =>
    obtain ⟨k', v'⟩ := a
    by_cases h : k' = k <;> simp [dictInsert, dictFind, h, ih]

theorem dictFind_insert_ne (a k : Nat) (v : Node) (cs : List (Nat × Node))
    (h : a ≠ k) : dictFind a (dictInsert k v cs) = dictFind a cs := by
  have h' : k ≠ a := Ne.symm h
  induction cs with
  | nil => simp [dictInsert, dictFind, h']
  | cons p rest ih =>
    obtain ⟨k', v'⟩ := p
    by_cases hk : k' = k
    · subst hk
      simp [dictInsert, dictFind, h']
    · by_cases ha : k' = a <;> simp [dictInsert, dictFind, hk, ha, h, h', ih]

theorem dictInsert_of_found (k : Nat) (v : Node) (cs : List (Nat × Node))
    (h : dictFind k cs = some v) : dictInsert k v cs = cs := by
  induction cs with
  | nil => simp [dictFind] at h
  | cons a rest ih =>
    obtain ⟨k', v'⟩ := a
    by_cases hk : k' = k
    · subst hk
      simp [dictFind] at h
      simp [dictInsert, h]
    · simp [dictFind, hk] at h
      simp [dictInsert, hk, ih h]

theorem mem_dictInsert (kc : Nat × Node) (k : Nat) (v : Node)
    (cs : List (Nat × Node)) (h : kc ∈ dictInsert k v cs) :
    kc = (k, v) ∨ kc ∈ cs := by
  induction cs with
  | nil => simpa [dictInsert] using h
  | cons a rest ih =>
    obtain ⟨k', v'⟩ := a
    by_cases hk : k' = k
    · subst hk
      simp [dictInsert] at h
      rcases h with h | h
      · exact Or.inl (by simp [h])
      · exact Or.inr (by simp [h])
    · simp [dictInsert, hk] at h
      rcases h with h | h
      · exact Or.inr (by simp [h])
      · rcases ih h with h' | h'
        · exact Or.inl h'
        · exact Or.inr (by simp [h'])

theorem dictFind_mem (k : Nat) (v : Node) (cs : List (Nat × Node))
    (h : dictFind k cs = some v) : (k, v) ∈ cs := by
  induction cs with
  | nil => simp [dictFind] at h
  | cons a rest ih =>
    obtain ⟨k', v'⟩ := a
    by_cases hk : k' = k
    · subst hk
      simp [dictFind] at h
      simp [h]
    · simp [dictFind, hk] at h
      simp [ih h]

theorem mem_keysOf_dictInsert (a k : Nat) (v : Node) (cs : List (Nat × Node))
    (h : a ∈ keysOf (dictInsert k v cs)) : a = k ∨ a ∈ keysOf cs := by
  induction cs with
  | nil => simpa [dictInsert, keysOf] using h
  | cons p rest ih =>
    obtain ⟨k', v'⟩ := p
    by_cases hk : k' = k
    · subst hk
      simpa [dictInsert, keysOf] using h
    · simp [dictInsert, hk, keysOf] at h ⊢
      rcases h with h | h
      · exact Or.inr (Or.inl h)
      · rcases ih (by simpa [keysOf] using h) with h' | h'
        · exact Or.inl h'
        · exact Or.inr (Or.inr (by simpa [keysOf] using h'))

theorem nodupKeys_dictInsert (k : Nat) (v : Node) (cs : List (Nat × Node))
    (h : nodupKeys cs = true) : nodupKeys (dictInsert k v cs) = true := by
  induction cs with
  | nil => simp [dictInsert, nodupKeys, keysOf]
  | cons p rest ih =>
    obtain ⟨k', v'⟩ := p
    simp [nodupKeys] at h
    by_cases hk : k' = k
    · subst hk
      simp [dictInsert, nodupKeys, h.1, h.2]
    · have h2 := ih h.2
      simp [dictInsert, hk, nodupKeys, h2]
      intro hc
      rcases mem_keysOf_dictInsert k' k v rest hc with h' | h'
      · exact hk h'
      · exact h.1 h'

theorem keysOf_cons (k : Nat) (v : Node) (rest : List (Nat × Node)) :
    keysOf ((k, v) :: rest) = k :: keysOf rest := rfl

theorem dictFind_none_of_not_mem (k : Nat) (cs : List (Nat × Node))
    (h : k ∉ keysOf cs) : dictFind k cs = none := by
  induction cs with
  | nil => rfl
  | cons p rest ih =>
    obtain ⟨k', v'⟩ := p
    rw [keysOf_cons, List.mem_cons] at h
    push_neg at h
    simp [dictFind, Ne.symm h.1, ih h.2]

theorem mem_keysOf_of_find (k : Nat) (v : Node) (cs : List (Nat × Node))
    (h : dictFind k cs = some v) : k ∈ keysOf cs := by
  have := dictFind_mem k v cs h
  exact List.mem_map.2 ⟨(k, v), this, rfl⟩

/-! ### Invariant I1: leaves have no children (claim C8 groundwork) -/

theorem inv1List_find (k : Nat) (c : Node) (cs : List (Nat × Node))
    (h : inv1List cs = true) (hf : dictFind k cs = some c) : inv1Node c = true := by
  induction cs with
  | nil => simp [dictFind] at hf
  | cons p rest ih =>
    obtain ⟨k', v'⟩ := p
    simp [inv1List] at h
    by_cases hk : k' = k
    · subst hk
      simp [dictFind] at hf
      exact hf ▸ h.1
    · simp [dictFind, hk] at hf
      exact ih h.2 hf

theorem inv1List_dictInsert (k : Nat) (v : Node) (cs : List (Nat × Node))
    (hv : inv1Node v = true) (h : inv1List cs = true) :
    inv1List (dictInsert k v cs) = true := by
  induction cs with
  | nil => simp [dictInsert, inv1List, hv]
  | cons p rest ih =>
    obtain ⟨k', v'⟩ := p
    simp [inv1List] at h
    by_cases hk : k' = k <;> simp [dictInsert, hk, inv1List, hv, h.1, h.2, ih h.2]

theorem inv1List_rangeInsert (lo cnt value : Nat) (cs : List (Nat × Node))
    (h : inv1List cs = true) : inv1List (rangeInsert lo cnt value cs) = true := by
  induction cnt generalizing lo cs with
  | zero => simpa [rangeInsert] using h
  | succ c ih =>
    exact ih (lo + 1) _ (inv1List_dictInsert _ _ _ (by simp [inv1Node, inv1List]) h)

theorem inv1_addTail (ipBytes : List Nat) (value : Nat) (steps : Int)
    (remaining : Nat) (node : Node) (h : inv1Node node = true) :
    inv1Node (addTail ipBytes value steps remaining node).1 = true := by
  obtain ⟨cs, isLeaf, v⟩ := node
  by_cases hr : remaining = 0
  · simp [addTail, hr, inv1Node, inv1List]
  · by_cases hl : Node.is_leaf (.mk cs isLeaf v) = true
    · simpa [addTail, hr, hl] using h
    · simp [addTail, hr, hl]
      cases hpi : pyIndex ipBytes steps with
      | none => simpa using h
      | some byte =>
        simp [Node.is_leaf] at hl
        simp [inv1Node, Node.children, Node.is_leaf, Node.value, hl]
        simp [inv1Node] at h
        exact inv1List_rangeInsert _ _ _ _ h.2

theorem inv1_addSteps (ipBytes : List Nat) (value : Nat) (steps : Int)
    (remaining : Nat) (k i : Nat) (node : Node) (h : inv1Node node = true) :
    inv1Node (addSteps ipBytes value steps remaining k i node).1 = true := by
  induction k generalizing i node with
  | zero => exact inv1_addTail _ _ _ _ _ h
  | succ k ih =>
    obtain ⟨cs, isLeaf, v⟩ := node
    simp only [addSteps]
    by_cases hl : Node.is_leaf (.mk cs isLeaf v) = true
    · rw [if_pos hl]
      exact h
    · rw [if_neg hl]
      simp only [Node.is_leaf] at hl
      rw [Bool.not_eq_true] at hl
      subst hl
      cases hb : ipBytes.get? i with
      | none => exact h
      | some byte =>
        simp only [Node.children, Node.is_leaf, Node.value]
        simp only [inv1Node, Bool.not_false, Bool.true_or, Bool.true_and] at h
        have hchild : inv1Node ((dictFind byte cs).getD emptyNode) = true := by
          cases hf : dictFind byte cs with
          | none => simp [emptyNode, inv1Node, inv1List]
          | some c => simpa using inv1List_find byte c cs h hf
        simp only [inv1Node, Bool.not_false, Bool.true_or, Bool.true_and]
        exact inv1List_dictInsert _ _ _ (ih (i + 1) _ hchild) h

theorem inv1_addParsed (root : Node) (ipBytes : List Nat) (mask : Int)
    (value : Nat) (h : inv1Node root = true) :
    inv1Node (addParsed root ipBytes mask value).1 = true := by
  by_cases hv : 1 ≤ value ∧ value ≤ 65535
  · simpa [addParsed, hv, addCore] using inv1_addSteps _ _ _ _ _ _ _ h
  · simpa [addParsed, hv] using h

theorem pruneList_fst (l : List (Nat × Node)) (all : Bool) (fv : Option Nat) :
    (pruneList l all fv).1 = l.map (fun kc => (kc.1, (pruneNode kc.2).1)) := by
  induction l generalizing all fv with
  | nil => simp [pruneList]
  | cons p rest ih =>
    obtain ⟨b, child⟩ := p
    simp [pruneList, ih]

mutual
theorem inv1_pruneNode (n : Node) (h : inv1Node n = true) :
    inv1Node (pruneNode n).1 = true := by
  match n with
  | .mk cs isLeaf v =>
  simp only [pruneNode]
  by_cases he : cs.isEmpty
  · rw [if_pos he]
    exact h
  · rw [if_neg he]
    by_cases hc : ((pruneList cs (cs.length == 256) none).2.1 &&
        (pruneList cs (cs.length == 256) none).2.2.isSome) = true
    · rw [if_pos hc]
      simp only [Bool.and_eq_true, Option.isSome_iff_exists] at hc
      obtain ⟨_, w, hw⟩ := hc
      simp [inv1Node, inv1List, hw]
    · rw [if_neg hc]
      simp only [inv1Node, Bool.and_eq_true] at h
      obtain ⟨hA, hB⟩ := h
      have hL : isLeaf = false := by
        cases isLeaf
        · rfl
        · exfalso
          simp only [Bool.not_true, Bool.false_or] at hA
          exact he hA
      subst hL
      simp only [inv1Node, Bool.not_false, Bool.true_or, Bool.true_and]
      exact inv1_pruneList cs _ _ hB
  termination_by nodeSize n
  decreasing_by all_goals simp [nodeSize, listSize]

theorem inv1_pruneList (l : List (Nat × Node)) (all : Bool) (fv : Option Nat)
    (h : inv1List l = true) : inv1List (pruneList l all fv).1 = true := by
  match l with
  | [] => simp [pruneList, inv1List]
  | (b, child) :: rest =>
    simp only [inv1List, Bool.and_eq_true] at h
    simp only [pruneList, inv1List, Bool.and_eq_true]
    exact ⟨inv1_pruneNode child h.1, inv1_pruneList rest _ _ h.2⟩
  termination_by listSize l
  decreasing_by all_goals simp [listSize, nodeSize] <;> omega
end

theorem inv1_buildOps_from (ops : List AddOp) (t : Node) (h : inv1Node t = true) :
    inv1Node (ops.foldl (fun t op => (addParsed t op.ipBytes op.mask op.value).1) t) = true := by
  induction ops generalizing t with
  | nil => exact h
  | cons op rest ih => exact ih _ (inv1_addParsed _ _ _ _ h)

/-- Claim C8 — the invariant "every node with `is_leaf` true has an empty
children mapping" (spec I1) holds for the fresh builder, is preserved by
every `add_cidr` call (here given its parsed arguments; parse failures and
the tag check leave the tree untouched) and by `_prune`, each from any
state satisfying it; consequently it holds after any sequence of
`add_cidr` calls. -/
theorem C8_leaf_children_empty_invariant :
    inv1Node emptyNode = true ∧
    (∀ t bytes mask value, inv1Node t = true →
      inv1Node (addParsed t bytes mask value).1 = true) ∧
    (∀ t, inv1Node t = true → inv1Node (pruneNode t).1 = true) ∧
    (∀ ops : List AddOp, inv1Node (buildOps ops) = true) :=
  ⟨rfl, fun t b m v h => inv1_addParsed t b m v h, fun t h => inv1_pruneNode t h,
    fun ops => inv1_buildOps_from ops emptyNode rfl⟩

/-- Witness for C8 at concrete inputs: one insertion into the fresh
builder, then a prune, both keep I1. -/
theorem C8_leaf_children_empty_invariant_witness :
    inv1Node ((addParsed emptyNode [1, 2, 3, 4] 24 5).1) = true ∧
    inv1Node ((pruneNode (addParsed emptyNode [1, 2, 3, 4] 24 5).1).1) = true := by
  refine ⟨C8_leaf_children_empty_invariant.2.1 emptyNode [1, 2, 3, 4] 24 5 rfl, ?_⟩
  exact C8_leaf_children_empty_invariant.2.2.1 _
    (C8_leaf_children_empty_invariant.2.1 emptyNode [1, 2, 3, 4] 24 5 rfl)

/-! ### The `_prune` boolean result is the pruned node's leaf flag -/

theorem pruneNode_snd (n : Node) : (pruneNode n).2 = (pruneNode n).1.is_leaf := by
  match n with
  | .mk cs isLeaf v =>
    simp only [pruneNode]
    by_cases he : cs.isEmpty
    · rw [if_pos he]
      rfl
    · rw [if_neg he]
      by_cases hc : ((pruneList cs (cs.length == 256) none).2.1 &&
          (pruneList cs (cs.length == 256) none).2.2.isSome) = true
      · rw [if_pos hc]
        rfl
      · rw [if_neg hc]
        rfl

/-! ### Claim C3 — a `covered` insertion leaves the tree exactly unchanged -/

theorem addSteps_emptyNode_not_covered (ipBytes : List Nat) (value : Nat)
    (steps : Int) (remaining : Nat) (k i : Nat) :
    (addSteps ipBytes value steps remaining k i emptyNode).2 ≠ .covered := by
  induction k generalizing i with
  | zero =>
    simp only [addSteps, addTail]
    by_cases hr : remaining = 0
    · simp [hr]
    · rw [if_neg hr]
      simp only [emptyNode, Node.is_leaf, Bool.false_eq_true, if_false]
      cases pyIndex ipBytes steps <;> simp
  | succ k ih =>
    simp only [addSteps, emptyNode, Node.is_leaf, Bool.false_eq_true, if_false]
    cases ipBytes.get? i with
    | none => simp
    | some byte =>
      simpa [Node.children, dictFind, emptyNode] using ih (i + 1)

theorem addTail_covered (ipBytes : List Nat) (value : Nat) (steps : Int)
    (remaining : Nat) (node : Node)
    (h : (addTail ipBytes value steps remaining node).2 = .covered) :
    (addTail ipBytes value steps remaining node).1 = node := by
  simp only [addTail] at h ⊢
  by_cases hr : remaining = 0
  · simp [hr] at h
  · rw [if_neg hr] at h ⊢
    by_cases hl : node.is_leaf = true
    · simp [hl]
    · rw [if_neg hl] at h ⊢
      cases hpi : pyIndex ipBytes steps <;> rw [hpi] at h <;> simp at h

theorem addSteps_covered (ipBytes : List Nat) (value : Nat) (steps : Int)
    (remaining : Nat) (k i : Nat) (node : Node)
    (h : (addSteps ipBytes value steps remaining k i node).2 = .covered) :
    (addSteps ipBytes value steps remaining k i node).1 = node := by
  induction k generalizing i node with
  | zero => exact addTail_covered _ _ _ _ _ h
  | succ k ih =>
    simp only [addSteps] at h ⊢
    by_cases hl : node.is_leaf = true
    · simp [hl]
    · rw [if_neg hl] at h ⊢
      cases hb : ipBytes.get? i with
      | none => rw [hb] at h
      | some byte =>
        rw [hb] at h
        dsimp only at h ⊢
        cases hf : dictFind byte node.children with
        | none =>
          have hnc := addSteps_emptyNode_not_covered ipBytes value steps remaining k (i + 1)
          rw [hf] at h
          simp only [Option.getD_none] at h
          exact absurd h hnc
        | some c =>
          rw [hf] at h
          simp only [Option.getD_some] at h ⊢
          rw [ih (i + 1) c h, dictInsert_of_found byte c node.children hf]
          match node with
          | .mk cs l v => rfl

/-- Claim C3 — insertion never descends through a leaf ancestor: whenever
the byte-wise descent of `add_cidr` returns early because it met a node
with `is_leaf` set (either inside the `range(steps)` loop or at the final
node in the non-byte-aligned case), modelled by the `covered` outcome, the
tree is exactly unchanged. -/
theorem C3_covered_insert_is_noop (t : Node) (bytes : List Nat) (mask : Int)
    (value : Nat) (h : (addParsed t bytes mask value).2 = .covered) :
    (addParsed t bytes mask value).1 = t := by
  by_cases hv : 1 ≤ value ∧ value ≤ 65535
  · simp only [addParsed, if_pos hv, addCore] at h ⊢
    exact addSteps_covered _ _ _ _ _ _ _ h
  · simp [addParsed, if_neg hv] at h

/-- Witness for C3: a `/8` leaf at byte 1 makes a later `1.2.3.4/32`
insertion return early with the tree unchanged. -/
theorem C3_covered_insert_is_noop_witness :
    (addParsed (addParsed emptyNode [1, 0, 0, 0] 8 5).1 [1, 2, 3, 4] 32 6).1 =
      (addParsed emptyNode [1, 0, 0, 0] 8 5).1 :=
  C3_covered_insert_is_noop _ [1, 2, 3, 4] 32 6 (by decide)

/-! ### Claim C5 — tag range check and silent parse skip -/

/-- Claim C5 — `add_cidr` raises `ValueError` for every tag outside
`1..65535` (including 0) before looking at the CIDR text, leaving the tree
unchanged; and for every in-range tag paired with a string on which CIDR
parsing fails (no `/` separator giving two parts, non-integer mask text,
or an address the address parser rejects — any `parseCidr` failure), it
returns normally (`skipped`) with the tree unchanged. -/
theorem C5_tag_check_and_silent_parse_skip :
    (∀ (pton : Bool → List Char → Option (List Nat)) (cidr : List Char)
        (value : Nat) (t : Node), ¬(1 ≤ value ∧ value ≤ 65535) →
        add_cidr pton t cidr value = (t, .valueError)) ∧
    (∀ (pton : Bool → List Char → Option (List Nat)) (cidr : List Char)
        (value : Nat) (t : Node), 1 ≤ value → value ≤ 65535 →
        parseCidr pton cidr = none →
        add_cidr pton t cidr value = (t, .skipped)) := by
  constructor
  · intro pton cidr value t hv
    simp [add_cidr, hv]
  · intro pton cidr value t h1 h2 hp
    simp [add_cidr, h1, h2, hp]

/-- Witness for C5: tag 0 is rejected with the tree unchanged, and an
in-range tag with unparseable text (no `/`) is silently skipped. -/
theorem C5_tag_check_and_silent_parse_skip_witness :
    add_cidr (fun _ _ => none) emptyNode [] 0 = (emptyNode, .valueError) ∧
    add_cidr (fun _ _ => none) emptyNode [] 1 = (emptyNode, .skipped) :=
  ⟨C5_tag_check_and_silent_parse_skip.1 (fun _ _ => none) [] 0 emptyNode (by decide),
   C5_tag_check_and_silent_parse_skip.2 (fun _ _ => none) [] 1 emptyNode
     (by decide) (by decide) rfl⟩

/-! ### Claim C2 — out-of-range masks are not treated as parse errors -/

theorem addSteps_emptyNode_tail_oob (ipBytes : List Nat) (value : Nat)
    (steps : Int) (remaining : Nat) (hr : remaining ≠ 0) (hs : 0 ≤ steps)
    (hlen : ipBytes.length ≤ steps.toNat) (k i : Nat) :
    (addSteps ipBytes value steps remaining k i emptyNode).2 = .indexError := by
  induction k generalizing i with
  | zero =>
    simp only [addSteps, addTail]
    rw [if_neg hr]
    simp only [emptyNode, Node.is_leaf, Bool.false_eq_true, if_false]
    have : pyIndex ipBytes steps = none := by
      simp only [pyIndex, if_pos hs]
      exact List.get?_eq_none.2 hlen
    rw [this]
  | succ k ih =>
    simp only [addSteps, emptyNode, Node.is_leaf, Bool.false_eq_true, if_false]
    cases hb : ipBytes.get? i with
    | none => rfl
    | some byte =>
      simpa [Node.children, dictFind, emptyNode] using ih (i + 1)

theorem addSteps_emptyNode_loop_oob (ipBytes : List Nat) (value : Nat)
    (steps : Int) (remaining : Nat) (k i : Nat) (hk : 1 ≤ k)
    (hlen : ipBytes.length < i + k) :
    (addSteps ipBytes value steps remaining k i emptyNode).2 = .indexError := by
  induction k generalizing i with
  | zero => omega
  | succ k ih =>
    simp only [addSteps, emptyNode, Node.is_leaf, Bool.false_eq_true, if_false]
    cases hb : ipBytes.get? i with
    | none => rfl
    | some byte =>
      obtain ⟨hi, -⟩ := List.get?_eq_some.1 hb
      simpa [Node.children, dictFind, emptyNode] using
        ih (i + 1) (by omega) (by omega)

/-- Claim C2, amended — out-of-bounds masks are *not* treated as parse
errors.  On a fresh builder, any mask strictly larger than 8 × (address
byte length) — in particular any mask above 32 for IPv4 or above 128 for
IPv6 — makes `add_cidr` raise `IndexError` (after creating interior
nodes) instead of returning silently; and a negative mask does return
without an exception but can modify the tree: a mask of `-8` marks the
root itself as a leaf. -/
theorem C2_amended_oob_mask_not_parse_error :
    (∀ (ipBytes : List Nat) (mask : Int) (value : Nat),
        1 ≤ value → value ≤ 65535 → 8 * (ipBytes.length : Int) < mask →
        (addParsed emptyNode ipBytes mask value).2 = .indexError) ∧
    (addParsed emptyNode [1, 2, 3, 4] (-8) 1).1 = .mk [] true (some 1) ∧
    (addParsed emptyNode [1, 2, 3, 4] (-8) 1).2 = .done := by
  refine ⟨?_, rfl, rfl⟩
  intro ipBytes mask value h1 h2 hm
  simp only [addParsed, addCore]
  rw [if_pos (show (1 : Nat) ≤ value ∧ value ≤ 65535 from ⟨h1, h2⟩)]
  have hq : Int.fdiv mask 8 = mask / 8 := Int.fdiv_eq_ediv mask (by norm_num)
  have hr : Int.emod mask 8 = mask % 8 := rfl
  rw [hq, hr]
  have hs : 0 ≤ mask / 8 := by omega
  by_cases hcase : (mask / 8).toNat = ipBytes.length
  · have hrem : (mask % 8).toNat ≠ 0 := by omega
    exact addSteps_emptyNode_tail_oob ipBytes value _ _ hrem hs (by omega) _ 0
  · exact addSteps_emptyNode_loop_oob ipBytes value _ _ ((mask / 8).toNat) 0
      (by omega) (by omega)

/-- Counterexample for C2 as stated: the claim says a mask above 32 for an
IPv4 CIDR makes `add_cidr` return without raising; in fact
`"1.2.3.4/40"` parses (so it is not skipped) and the insertion raises
`IndexError`. -/
theorem C2_counterexample_mask40_raises :
    (add_cidr ptonV4 emptyNode
      ['1', '.', '2', '.', '3', '.', '4', '/', '4', '0'] 1).2 = .indexError := by
  decide

/-- Witness for the amended C2 at a concrete input: `mask = 40` on a
4-byte address raises `IndexError` on a fresh builder. -/
theorem C2_amended_oob_mask_not_parse_error_witness :
    (addParsed emptyNode [9, 9, 9, 9] 40 2).2 = .indexError :=
  C2_amended_oob_mask_not_parse_error.1 [9, 9, 9, 9] 40 2 (by decide) (by decide)
    (by decide)

/-! ### Claim C4 — frame effect of a non-byte-aligned insertion -/

theorem nat_le_or (a b : Nat) : a ≤ a ||| b := by
  apply Nat.le_of_testBit
  intro i h
  simp [Nat.testBit_or, h]

theorem dictFind_rangeInsert_outside (value b lo cnt : Nat) (cs : List (Nat × Node))
    (h : b < lo ∨ lo + cnt ≤ b) :
    dictFind b (rangeInsert lo cnt value cs) = dictFind b cs := by
  induction cnt generalizing lo cs with
  | zero => rfl
  | succ c ih =>
    have hne : b ≠ lo := by omega
    simp only [rangeInsert]
    rw [ih (lo + 1) _ (by omega), dictFind_insert_ne b lo _ cs hne]

theorem dictFind_rangeInsert_inside (value b lo cnt : Nat) (cs : List (Nat × Node))
    (h1 : lo ≤ b) (h2 : b < lo + cnt) :
    dictFind b (rangeInsert lo cnt value cs) = some (.mk [] true (some value)) := by
  induction cnt generalizing lo cs with
  | zero => omega
  | succ c ih =>
    simp only [rangeInsert]
    by_cases hb : b = lo
    · subst hb
      rw [dictFind_rangeInsert_outside value b (b + 1) c _ (by omega)]
      exact dictFind_insert_self b _ cs
    · exact ih (lo + 1) _ (by omega) (by omega)

theorem updatePath_flags (p : List Nat) (f : Node → Node) (n : Node)
    (hf : ∀ x : Node, (f x).is_leaf = x.is_leaf ∧ (f x).value = x.value) :
    (updatePath p f n).is_leaf = n.is_leaf ∧ (updatePath p f n).value = n.value := by
  cases p with
  | nil => exact hf n
  | cons a rest => simp [updatePath, Node.is_leaf, Node.value]

theorem getPathD_emptyNode (p : List Nat) : getPathD emptyNode p = emptyNode := by
  induction p with
  | nil => rfl
  | cons a rest ih => simpa [getPathD, emptyNode, Node.children, dictFind] using ih

theorem getNode_getPathD (p : List Nat) (t : Node) :
    getNode t p = some (getPathD t p) ∨
      (getNode t p = none ∧ getPathD t p = emptyNode) := by
  induction p generalizing t with
  | nil => exact Or.inl rfl
  | cons a rest ih =>
    simp only [getNode, getPathD]
    cases hf : dictFind a t.children with
    | none =>
      dsimp only
      exact Or.inr ⟨rfl, getPathD_emptyNode rest⟩
    | some c =>
      dsimp only
      exact ih c

theorem getNode_append (p q : List Nat) (t : Node) :
    getNode t (p ++ q) =
      match getNode t p with
      | none => none
      | some x => getNode x q := by
  induction p generalizing t with
  | nil => simp [getNode]
  | cons a rest ih =>
    simp only [List.cons_append, getNode]
    cases dictFind a t.children with
    | none => rfl
    | some c => exact ih c

theorem getNode_updatePath_append (p q : List Nat) (f : Node → Node) (n : Node) :
    getNode (updatePath p f n) (p ++ q) = getNode (f (getPathD n p)) q := by
  induction p generalizing n with
  | nil => rfl
  | cons a rest ih =>
    simp only [List.cons_append, updatePath, getNode, getPathD, Node.children]
    rw [dictFind_insert_self]
    exact ih _

theorem isPre_nil (p : List Nat) : IsPre [] p := ⟨p, rfl⟩

theorem isPre_cons_iff (a : Nat) (q p : List Nat) :
    IsPre (a :: q) (a :: p) ↔ IsPre q p := by
  constructor
  · rintro ⟨r, hr⟩
    exact ⟨r, by simpa using hr⟩
  · rintro ⟨r, hr⟩
    exact ⟨r, by simp [hr]⟩

theorem getNode_updatePath_div (p q : List Nat) (f : Node → Node) (n : Node)
    (hq : ¬ IsPre q p) (hp : ¬ IsPre p q) :
    getNode (updatePath p f n) q = getNode n q := by
  induction p generalizing q n with
  | nil => exact absurd (isPre_nil q) hp
  | cons a p' ih =>
    cases q with
    | nil => exact absurd (isPre_nil (a :: p')) hq
    | cons b q' =>
      by_cases hab : a = b
      · subst hab
        have hq' : ¬ IsPre q' p' := fun h => hq ((isPre_cons_iff a q' p').2 h)
        have hp' : ¬ IsPre p' q' := fun h => hp ((isPre_cons_iff a p' q').2 h)
        simp only [updatePath, getNode, children_mk]
        rw [dictFind_insert_self]
        cases hf : dictFind a n.children with
        | none =>
          dsimp only
          rw [Option.getD_none, ih q' emptyNode hq' hp']
          cases q' with
          | nil => exact absurd (isPre_nil p') hq'
          | cons c rest => simp [getNode, emptyNode, dictFind]
        | some c =>
          dsimp only
          rw [Option.getD_some]
          exact ih q' c hq' hp'
      · simp only [updatePath, getNode, children_mk]
        rw [dictFind_insert_ne b a _ _ (Ne.symm hab)]

theorem getNode_updatePath_pre (q r : List Nat) (f : Node → Node) (n m : Node)
    (hf : ∀ x : Node, (f x).is_leaf = x.is_leaf ∧ (f x).value = x.value)
    (hm : getNode n q = some m) :
    ∃ m', getNode (updatePath (q ++ r) f n) q = some m' ∧
      m'.is_leaf = m.is_leaf ∧ m'.value = m.value := by
  induction q generalizing n m with
  | nil =>
    simp only [getNode, Option.some.injEq] at hm
    subst hm
    have hfl := updatePath_flags r f n hf
    exact ⟨updatePath r f n, rfl, hfl.1, hfl.2⟩
  | cons a q' ih =>
    simp only [getNode] at hm
    cases hc : dictFind a n.children with
    | none => rw [hc] at hm; exact absurd hm (by simp)
    | some c =>
      rw [hc] at hm
      dsimp only at hm
      simp only [List.cons_append, updatePath, getNode, children_mk]
      rw [dictFind_insert_self, hc, Option.getD_some]
      exact ih c m hm

theorem addTail_done_pyIndex (ipBytes : List Nat) (value : Nat) (steps : Int)
    (remaining : Nat) (node : Node) (hrem : remaining ≠ 0)
    (h : (addTail ipBytes value steps remaining node).2 = .done) :
    ∃ tb, pyIndex ipBytes steps = some tb := by
  simp only [addTail] at h
  rw [if_neg hrem] at h
  by_cases hl : node.is_leaf = true
  · rw [if_pos hl] at h
    exact absurd h (by simp)
  · rw [if_neg hl] at h
    cases hpi : pyIndex ipBytes steps with
    | none => rw [hpi] at h; exact absurd h (by simp)
    | some tb => exact ⟨tb, rfl⟩

theorem addSteps_done_pyIndex (ipBytes : List Nat) (value : Nat) (steps : Int)
    (remaining : Nat) (k i : Nat) (node : Node) (hrem : remaining ≠ 0)
    (h : (addSteps ipBytes value steps remaining k i node).2 = .done) :
    ∃ tb, pyIndex ipBytes steps = some tb := by
  induction k generalizing i node with
  | zero => exact addTail_done_pyIndex _ _ _ _ _ hrem h
  | succ k ih =>
    simp only [addSteps] at h
    by_cases hl : node.is_leaf = true
    · rw [if_pos hl] at h
      exact absurd h (by simp)
    · rw [if_neg hl] at h
      cases hb : ipBytes.get? i with
      | none => rw [hb] at h; exact absurd h (by simp)
      | some byte =>
        rw [hb] at h
        exact ih (i + 1) _ h

theorem addSteps_done_factor (ipBytes : List Nat) (value : Nat) (steps : Int)
    (remaining tb : Nat) (hrem : remaining ≠ 0)
    (hpi : pyIndex ipBytes steps = some tb) (k i : Nat) (node : Node)
    (h : (addSteps ipBytes value steps remaining k i node).2 = .done) :
    (addSteps ipBytes value steps remaining k i node).1 =
      updatePath ((ipBytes.drop i).take k) (tailFun tb remaining value) node := by
  induction k generalizing i node with
  | zero =>
    simp only [addSteps, addTail] at h ⊢
    rw [if_neg hrem] at h ⊢
    by_cases hl : node.is_leaf = true
    · rw [if_pos hl] at h
      exact absurd h (by simp)
    · rw [if_neg hl] at h ⊢
      rw [hpi] at h ⊢
      simp [List.take_zero, updatePath, tailFun]
  | succ k ih =>
    simp only [addSteps] at h ⊢
    by_cases hl : node.is_leaf = true
    · rw [if_pos hl] at h
      exact absurd h (by simp)
    · rw [if_neg hl] at h ⊢
      cases hb : ipBytes.get? i with
      | none => rw [hb] at h; exact absurd h (by simp)
      | some byte =>
        rw [hb] at h
        dsimp only at h ⊢
        obtain ⟨hlt, hget⟩ := List.get?_eq_some.1 hb
        have hdrop : ipBytes.drop i = byte :: ipBytes.drop (i + 1) := by
          rw [List.drop_eq_get_cons hlt, hget]
        rw [hdrop, List.take_succ_cons]
        simp only [updatePath]
        rw [ih (i + 1) _ h]

/-- Claim C4 — frame effect of a successful non-byte-aligned insertion.
When `add_cidr` on parsed input `(bytes, mask, tag)` with
`remaining = mask mod 8 ≠ 0` returns normally having modified the tree
(outcome `done`), then with `p` the byte path of the descent,
`tb = ip_bytes[steps]`, `lo = tb & (0xFF << (8 - remaining))` and
`hi = lo | (0xFF >> remaining)`:
(1) every child of the reached node with byte key in `[lo, hi]` is a fresh
leaf carrying the tag, with empty children;
(2) at byte keys outside `[lo, hi]` the subtree below the reached node is
unchanged;
(3) every node on a divergent path is unchanged;
(4) every node on the descent path itself (the reached node included)
keeps its `is_leaf` flag and its value. -/
theorem C4_nonaligned_insert_frame (t : Node) (bytes : List Nat) (mask : Int)
    (value : Nat) (p : List Nat) (lo hi : Nat) (tb : Nat)
    (hdone : (addParsed t bytes mask value).2 = .done)
    (hrem : (Int.emod mask 8).toNat ≠ 0)
    (htb : pyIndex bytes (Int.fdiv mask 8) = some tb)
    (hp : p = bytes.take (Int.fdiv mask 8).toNat)
    (hlo : lo = tb &&& (255 <<< (8 - (Int.emod mask 8).toNat)))
    (hhi : hi = lo ||| (255 >>> (Int.emod mask 8).toNat)) :
    (∀ b, lo ≤ b → b ≤ hi →
        getNode (addParsed t bytes mask value).1 (p ++ [b]) =
          some (.mk [] true (some value))) ∧
    (∀ b q, ¬(lo ≤ b ∧ b ≤ hi) →
        getNode (addParsed t bytes mask value).1 (p ++ b :: q) =
          getNode t (p ++ b :: q)) ∧
    (∀ q, ¬ IsPre q p → ¬ IsPre p q →
        getNode (addParsed t bytes mask value).1 q = getNode t q) ∧
    (∀ q m, IsPre q p → getNode t q = some m →
        ∃ m', getNode (addParsed t bytes mask value).1 q = some m' ∧
          m'.is_leaf = m.is_leaf ∧ m'.value = m.value) := by
  have hv : 1 ≤ value ∧ value ≤ 65535 := by
    by_contra hv
    simp [addParsed, if_neg hv] at hdone
  simp only [addParsed, if_pos hv, addCore] at hdone ⊢
  have hfact := addSteps_done_factor bytes value (Int.fdiv mask 8)
    (Int.emod mask 8).toNat tb hrem htb (Int.fdiv mask 8).toNat 0 t hdone
  rw [List.drop_zero] at hfact
  rw [hfact, ← hp]
  have hflags : ∀ x : Node, ((tailFun tb (Int.emod mask 8).toNat value) x).is_leaf =
      x.is_leaf ∧ ((tailFun tb (Int.emod mask 8).toNat value) x).value = x.value := by
    intro x
    simp [tailFun, Node.is_leaf, Node.value]
  have hcnt : ∀ b, lo ≤ b → b ≤ hi → b < lo + (hi + 1 - lo) := by
    intro b hb1 hb2
    omega
  refine ⟨?_, ?_, ?_, ?_⟩
  · intro b hb1 hb2
    rw [getNode_updatePath_append]
    simp only [tailFun, getNode, children_mk]
    rw [← hlo, ← hhi]
    rw [dictFind_rangeInsert_inside value b lo _ _ hb1 (hcnt b hb1 hb2)]
  · intro b q hb
    have hhi_lo : lo ≤ hi := hhi ▸ nat_le_or lo _
    rw [getNode_updatePath_append]
    simp only [tailFun, getNode, children_mk]
    rw [← hlo, ← hhi]
    rw [dictFind_rangeInsert_outside value b lo _ _ (by omega)]
    rcases getNode_getPathD p t with hgp | ⟨hgp, hemp⟩
    · rw [getNode_append p (b :: q) t, hgp]
      dsimp only
      simp only [getNode]
    · rw [getNode_append p (b :: q) t, hgp, hemp]
      simp [emptyNode, Node.children, dictFind]
  · intro q hq hp'
    exact getNode_updatePath_div p q _ t hq hp'
  · rintro q m ⟨r, hr⟩ hm
    subst hr
    exact getNode_updatePath_pre q r _ t m hflags hm

/-- Witness for C4: inserting `192.168.1.0/30` into a fresh builder
replaces exactly the children `0..3` of the node at path `[192,168,1]`. -/
theorem C4_nonaligned_insert_frame_witness :
    (∀ b, 0 ≤ b → b ≤ 3 →
        getNode (addParsed emptyNode [192, 168, 1, 0] 30 9).1 ([192, 168, 1] ++ [b]) =
          some (.mk [] true (some 9))) ∧
    (∀ b q, ¬(0 ≤ b ∧ b ≤ 3) →
        getNode (addParsed emptyNode [192, 168, 1, 0] 30 9).1 ([192, 168, 1] ++ b :: q) =
          getNode emptyNode ([192, 168, 1] ++ b :: q)) ∧
    (∀ q, ¬ IsPre q [192, 168, 1] → ¬ IsPre [192, 168, 1] q →
        getNode (addParsed emptyNode [192, 168, 1, 0] 30 9).1 q = getNode emptyNode q) ∧
    (∀ q m, IsPre q [192, 168, 1] → getNode emptyNode q = some m →
        ∃ m', getNode (addParsed emptyNode [192, 168, 1, 0] 30 9).1 q = some m' ∧
          m'.is_leaf = m.is_leaf ∧ m'.value = m.value) :=
  C4_nonaligned_insert_frame emptyNode [192, 168, 1, 0] 30 9 [192, 168, 1] 0 3 0
    (by decide) (by decide) (by decide) (by decide) (by decide) (by decide)

/-! ### The bundled well-formedness `invNode` is preserved by insertion -/

theorem invList_find (k : Nat) (c : Node) (cs : List (Nat × Node))
    (h : invList cs = true) (hf : dictFind k cs = some c) : invNode c = true := by
  induction cs with
  | nil => simp [dictFind] at hf
  | cons p rest ih =>
    obtain ⟨k', v'⟩ := p
    simp only [invList, Bool.and_eq_true] at h
    by_cases hk : k' = k
    · subst hk
      simp [dictFind] at hf
      exact hf ▸ h.1
    · simp [dictFind, hk] at hf
      exact ih h.2 hf

theorem invList_dictInsert (k : Nat) (v : Node) (cs : List (Nat × Node))
    (hv : invNode v = true) (h : invList cs = true) :
    invList (dictInsert k v cs) = true := by
  induction cs with
  | nil => simp [dictInsert, invList, hv]
  | cons p rest ih =>
    obtain ⟨k', v'⟩ := p
    simp only [invList, Bool.and_eq_true] at h
    by_cases hk : k' = k <;>
      simp [dictInsert, hk, invList, hv, h.1, h.2, ih h.2]

theorem bytesKeys_dictInsert (k : Nat) (v : Node) (cs : List (Nat × Node))
    (hk : k < 256) (h : bytesKeys cs = true) :
    bytesKeys (dictInsert k v cs) = true := by
  induction cs with
  | nil => simp [dictInsert, bytesKeys, hk]
  | cons p rest ih =>
    obtain ⟨k', v'⟩ := p
    simp only [bytesKeys, Bool.and_eq_true] at h
    by_cases hkk : k' = k
    · subst hkk
      simp only [dictInsert, if_pos rfl]
      simp [bytesKeys, hk, h.2]
    · simp only [dictInsert, if_neg hkk]
      simp only [bytesKeys, Bool.and_eq_true]
      exact ⟨h.1, ih h.2⟩

theorem nodupKeys_rangeInsert (lo cnt value : Nat) (cs : List (Nat × Node))
    (h : nodupKeys cs = true) : nodupKeys (rangeInsert lo cnt value cs) = true := by
  induction cnt generalizing lo cs with
  | zero => simpa [rangeInsert] using h
  | succ c ih => exact ih (lo + 1) _ (nodupKeys_dictInsert _ _ _ h)

theorem bytesKeys_rangeInsert (lo cnt value : Nat) (cs : List (Nat × Node))
    (hcnt : lo + cnt ≤ 256) (h : bytesKeys cs = true) :
    bytesKeys (rangeInsert lo cnt value cs) = true := by
  induction cnt generalizing lo cs with
  | zero => simpa [rangeInsert] using h
  | succ c ih =>
    exact ih (lo + 1) _ (by omega) (bytesKeys_dictInsert _ _ _ (by omega) h)

theorem invList_rangeInsert_bundle (lo cnt value : Nat) (cs : List (Nat × Node))
    (h : invList cs = true) : invList (rangeInsert lo cnt value cs) = true := by
  induction cnt generalizing lo cs with
  | zero => simpa [rangeInsert] using h
  | succ c ih =>
    exact ih (lo + 1) _
      (invList_dictInsert _ _ _ (by simp [invNode, nodupKeys, bytesKeys, invList]) h)

theorem invNode_addTail (ipBytes : List Nat) (value : Nat) (steps : Int)
    (remaining : Nat) (node : Node) (hbytes : ∀ b ∈ ipBytes, b < 256)
    (h : invNode node = true) :
    invNode (addTail ipBytes value steps remaining node).1 = true := by
  obtain ⟨cs, isLeaf, v⟩ := node
  simp only [addTail]
  by_cases hr : remaining = 0
  · rw [if_pos hr]
    simp [invNode, nodupKeys, bytesKeys, invList]
  · rw [if_neg hr]
    by_cases hl : Node.is_leaf (.mk cs isLeaf v) = true
    · rw [if_pos hl]
      exact h
    · rw [if_neg hl]
      cases hpi : pyIndex ipBytes steps with
      | none => exact h
      | some tb =>
        have htb : tb < 256 := by
          have : tb ∈ ipBytes := by
            simp only [pyIndex] at hpi
            by_cases hs : 0 ≤ steps
            · rw [if_pos hs] at hpi
              exact List.get?_mem hpi
            · rw [if_neg hs] at hpi
              by_cases hlen : (-steps).toNat ≤ ipBytes.length
              · rw [if_pos hlen] at hpi
                exact List.get?_mem hpi
              · rw [if_neg hlen] at hpi
                exact absurd hpi (by simp)
          exact hbytes tb this
        simp only [is_leaf_mk] at hl
        rw [Bool.not_eq_true] at hl
        subst hl
        dsimp only
        simp only [invNode, children_mk, is_leaf_mk, value_mk, Bool.not_false,
          Bool.true_or, Bool.true_and, Bool.and_eq_true] at h ⊢
        obtain ⟨⟨hnd, hbk⟩, hil⟩ := h
        have hlo : tb &&& (255 <<< (8 - remaining)) ≤ tb := Nat.and_le_left
        have hhi : (tb &&& (255 <<< (8 - remaining))) ||| (255 >>> remaining) < 256 := by
          apply Nat.or_lt_two_pow (n := 8)
          · omega
          · have : 255 >>> remaining ≤ 255 := by
              rw [Nat.shiftRight_eq_div_pow]
              exact Nat.div_le_self _ _
            omega
        refine ⟨⟨nodupKeys_rangeInsert _ _ _ _ hnd, ?_⟩,
          invList_rangeInsert_bundle _ _ _ _ hil⟩
        exact bytesKeys_rangeInsert _ _ _ _ (by omega) hbk

theorem invNode_addSteps (ipBytes : List Nat) (value : Nat) (steps : Int)
    (remaining : Nat) (k i : Nat) (node : Node)
    (hbytes : ∀ b ∈ ipBytes, b < 256) (h : invNode node = true) :
    invNode (addSteps ipBytes value steps remaining k i node).1 = true := by
  induction k generalizing i node with
  | zero => exact invNode_addTail _ _ _ _ _ hbytes h
  | succ k ih =>
    obtain ⟨cs, isLeaf, v⟩ := node
    simp only [addSteps]
    by_cases hl : Node.is_leaf (.mk cs isLeaf v) = true
    · rw [if_pos hl]
      exact h
    · rw [if_neg hl]
      simp only [is_leaf_mk] at hl
      rw [Bool.not_eq_true] at hl
      subst hl
      cases hb : ipBytes.get? i with
      | none => exact h
      | some byte =>
        have hbyte : byte < 256 := hbytes byte (List.get?_mem hb)
        dsimp only
        simp only [invNode, children_mk, is_leaf_mk, value_mk, Bool.not_false,
          Bool.true_or, Bool.true_and, Bool.and_eq_true] at h ⊢
        obtain ⟨⟨hnd, hbk⟩, hil⟩ := h
        have hchild : invNode ((dictFind byte cs).getD emptyNode) = true := by
          cases hf : dictFind byte cs with
          | none => simp [emptyNode, invNode, nodupKeys, bytesKeys, invList]
          | some c => simpa using invList_find byte c cs hil hf
        refine ⟨⟨nodupKeys_dictInsert _ _ _ hnd, bytesKeys_dictInsert _ _ _ hbyte hbk⟩, ?_⟩
        exact invList_dictInsert _ _ _ (ih (i + 1) _ hchild) hil

theorem invNode_addParsed (root : Node) (ipBytes : List Nat) (mask : Int)
    (value : Nat) (hbytes : ∀ b ∈ ipBytes, b < 256) (h : invNode root = true) :
    invNode (addParsed root ipBytes mask value).1 = true := by
  by_cases hv : 1 ≤ value ∧ value ≤ 65535
  · simp only [addParsed, if_pos hv, addCore]
    exact invNode_addSteps _ _ _ _ _ _ _ hbytes h
  · simpa [addParsed, if_neg hv] using h

/-! ### `_prune`: traversal state lemmas and invariant preservation -/

theorem keysOf_pruneMap (l : List (Nat × Node)) :
    keysOf (l.map (fun kc => (kc.1, (pruneNode kc.2).1))) = keysOf l := by
  induction l with
  | nil => rfl
  | cons p rest ih =>
    obtain ⟨k, c⟩ := p
    simp only [List.map_cons, keysOf_cons]
    rw [ih]

theorem nodupKeys_pruneMap (l : List (Nat × Node)) :
    nodupKeys (l.map (fun kc => (kc.1, (pruneNode kc.2).1))) = nodupKeys l := by
  induction l with
  | nil => rfl
  | cons p rest ih =>
    obtain ⟨k, c⟩ := p
    simp only [List.map_cons, nodupKeys, keysOf_pruneMap, ih]

theorem bytesKeys_pruneMap (l : List (Nat × Node)) :
    bytesKeys (l.map (fun kc => (kc.1, (pruneNode kc.2).1))) = bytesKeys l := by
  induction l with
  | nil => rfl
  | cons p rest ih =>
    obtain ⟨k, c⟩ := p
    simp only [List.map_cons, bytesKeys, ih]

theorem dictFind_pruneMap (k : Nat) (cs : List (Nat × Node)) :
    dictFind k (cs.map (fun kc => (kc.1, (pruneNode kc.2).1))) =
      (dictFind k cs).map (fun c => (pruneNode c).1) := by
  induction cs with
  | nil => rfl
  | cons p rest ih =>
    obtain ⟨k', c⟩ := p
    by_cases hk : k' = k <;> simp [dictFind, hk, ih]

theorem pruneList_true (l : List (Nat × Node)) (all : Bool) (fv : Option Nat)
    (h : (pruneList l all fv).2.1 = true) :
    all = true ∧ ∀ kc ∈ l, (pruneNode kc.2).2 = true := by
  induction l generalizing all fv with
  | nil => exact ⟨h, by simp⟩
  | cons p rest ih =>
    obtain ⟨b, child⟩ := p
    simp only [pruneList] at h
    obtain ⟨hst, hrest⟩ := ih _ _ h
    by_cases hpc : (pruneNode child).2 = true
    · rw [hpc] at hst
      simp only [Bool.not_true, Bool.false_eq_true, if_false] at hst
      have hall : all = true := by
        by_cases ha : all = true
        · exact ha
        · rw [if_neg ha] at hst
          exact absurd hst ha
      refine ⟨hall, ?_⟩
      intro kc hkc
      rcases List.mem_cons.1 hkc with rfl | hmem
      · exact hpc
      · exact hrest kc hmem
    · exfalso
      rw [Bool.not_eq_true] at hpc
      rw [hpc] at hst
      simp only [Bool.not_false, if_true] at hst
      exact absurd hst (by simp)

theorem pruneList_value (l : List (Nat × Node)) (fv : Option Nat) (v : Nat)
    (hiv : ∀ kc ∈ l, (pruneNode kc.2).2 = true →
      ((pruneNode kc.2).1.value).isSome = true)
    (hres : (pruneList l true fv).2.1 = true)
    (hval : (pruneList l true fv).2.2 = some v) :
    (∀ kc ∈ l, (pruneNode kc.2).1.value = some v) ∧ (fv = none ∨ fv = some v) := by
  induction l generalizing fv with
  | nil =>
    simp only [pruneList] at hval
    exact ⟨by simp, Or.inr hval⟩
  | cons p rest ih =>
    obtain ⟨b, child⟩ := p
    have hleaf : (pruneNode child).2 = true := by
      have := (pruneList_true _ _ _ hres).2 (b, child) (by simp)
      exact this
    simp only [pruneList, hleaf, Bool.not_true, Bool.false_eq_true, if_false,
      if_true] at hres hval
    have hvs : ((pruneNode child).1.value).isSome = true :=
      hiv (b, child) (by simp) hleaf
    obtain ⟨w, hw⟩ := Option.isSome_iff_exists.1 hvs
    cases hfv : fv with
    | none =>
      rw [hfv] at hres hval
      simp only at hres hval
      obtain ⟨hrest, hor⟩ := ih ((pruneNode child).1.value)
        (fun kc hkc h => hiv kc (by simp [hkc]) h) hres hval
      rcases hor with h0 | h0
      · rw [hw] at h0
        exact absurd h0 (by simp)
      · refine ⟨?_, Or.inl rfl⟩
        intro kc hkc
        rcases List.mem_cons.1 hkc with rfl | hmem
        · exact h0
        · exact hrest kc hmem
    | some u =>
      rw [hfv] at hres hval
      simp only at hres hval
      by_cases hne : (pruneNode child).1.value ≠ some u
      · rw [if_pos hne] at hres hval
        obtain ⟨hall, -⟩ := pruneList_true _ _ _ hres
        simp at hall
      · rw [if_neg hne] at hres hval
        rw [Decidable.not_not] at hne
        obtain ⟨hrest, hor⟩ := ih (some u)
          (fun kc hkc h => hiv kc (by simp [hkc]) h) hres hval
        have hu : u = v := by
          rcases hor with h0 | h0
          · exact absurd h0 (by simp)
          · simpa using h0
        subst hu
        refine ⟨?_, Or.inr rfl⟩
        intro kc hkc
        rcases List.mem_cons.1 hkc with rfl | hmem
        · exact hne
        · exact hrest kc hmem

mutual
theorem invNode_pruneNode (n : Node) (h : invNode n = true) :
    invNode (pruneNode n).1 = true := by
  match n with
  | .mk cs isLeaf v =>
  simp only [pruneNode]
  by_cases he : cs.isEmpty
  · rw [if_pos he]
    exact h
  · rw [if_neg he]
    by_cases hc : ((pruneList cs (cs.length == 256) none).2.1 &&
        (pruneList cs (cs.length == 256) none).2.2.isSome) = true
    · rw [if_pos hc]
      simp only [Bool.and_eq_true, Option.isSome_iff_exists] at hc
      obtain ⟨-, w, hw⟩ := hc
      simp [invNode, nodupKeys, bytesKeys, invList, hw]
    · rw [if_neg hc]
      simp only [invNode, Bool.and_eq_true] at h
      obtain ⟨⟨⟨hA, hnd⟩, hbk⟩, hil⟩ := h
      have hL : isLeaf = false := by
        cases isLeaf
        · rfl
        · exfalso
          simp only [Bool.not_true, Bool.false_or, Bool.and_eq_true] at hA
          exact he hA.1
      subst hL
      simp only [invNode, children_mk, is_leaf_mk, value_mk, Bool.not_false,
        Bool.true_or, Bool.true_and, Bool.and_eq_true]
      have hinv2 : invList (pruneList cs (cs.length == 256) none).1 = true :=
        invList_pruneList cs _ _ hil
      rw [pruneList_fst] at hinv2
      rw [pruneList_fst, nodupKeys_pruneMap, bytesKeys_pruneMap]
      exact ⟨⟨hnd, hbk⟩, hinv2⟩
  termination_by nodeSize n
  decreasing_by all_goals (simp [nodeSize, listSize]; try omega)

theorem invList_pruneList (l : List (Nat × Node)) (all : Bool) (fv : Option Nat)
    (h : invList l = true) : invList (pruneList l all fv).1 = true := by
  match l with
  | [] => simp [pruneList, invList]
  | (b, child) :: rest =>
    simp only [invList, Bool.and_eq_true] at h
    simp only [pruneList, invList, Bool.and_eq_true]
    exact ⟨invNode_pruneNode child h.1, invList_pruneList rest _ _ h.2⟩
  termination_by listSize l
  decreasing_by all_goals (simp [listSize, nodeSize]; try omega)
end

/-! ### Keys of a full fan-out are exactly the bytes -/

theorem nodupKeys_nodup (cs : List (Nat × Node)) (h : nodupKeys cs = true) :
    (keysOf cs).Nodup := by
  induction cs with
  | nil => simp [keysOf]
  | cons p rest ih =>
    obtain ⟨k, c⟩ := p
    simp only [nodupKeys, Bool.and_eq_true] at h
    rw [keysOf_cons]
    refine List.nodup_cons.2 ⟨?_, ih h.2⟩
    intro hmem
    have := h.1
    simp only [Bool.not_eq_true'] at this
    rw [List.contains_eq_any_beq] at this
    simp only [List.any_eq_false] at this
    have := this k hmem
    simp at this

theorem dictFind_isSome_of_mem (k : Nat) (cs : List (Nat × Node))
    (h : k ∈ keysOf cs) : ∃ c, dictFind k cs = some c := by
  induction cs with
  | nil => simp [keysOf] at h
  | cons p rest ih =>
    obtain ⟨k', c'⟩ := p
    by_cases hk : k' = k
    · exact ⟨c', by simp [dictFind, hk]⟩
    · rw [keysOf_cons, List.mem_cons] at h
      rcases h with rfl | h
      · exact absurd rfl hk
      · obtain ⟨c, hc⟩ := ih h
        exact ⟨c, by simp [dictFind, hk, hc]⟩

theorem full_fanout_find (cs : List (Nat × Node)) (hnd : nodupKeys cs = true)
    (hbk : bytesKeys cs = true) (hlen : cs.length = 256) (b : Nat) (hb : b < 256) :
    ∃ c, dictFind b cs = some c := by
  apply dictFind_isSome_of_mem
  have hnodup : (keysOf cs).Nodup := nodupKeys_nodup cs hnd
  have hsub : keysOf cs ⊆ List.range 256 := by
    clear hlen hnodup hnd
    induction cs with
    | nil => simp [keysOf]
    | cons p rest ih =>
      obtain ⟨k, c⟩ := p
      simp only [bytesKeys, Bool.and_eq_true, decide_eq_true_eq] at hbk
      rw [keysOf_cons]
      intro x hx
      rcases List.mem_cons.1 hx with rfl | hx
      · exact List.mem_range.2 hbk.1
      · exact ih hbk.2 hx
  have hlen' : (List.range 256).length ≤ (keysOf cs).length := by
    simp [keysOf, hlen]
  have hperm : (keysOf cs).Perm (List.range 256) :=
    List.Subperm.perm_of_length_le (List.subperm_of_subset hnodup hsub) hlen'
  exact hperm.symm.mem_iff.1 (List.mem_range.2 hb)

/-- A leaf with no children wins every lookup below it. -/
theorem treeLookup_leaf (v : Nat) (key : List Nat) (best : Nat) :
    treeLookup (.mk [] true (some v)) key best = v := by
  cases key <;> simp [treeLookup, dictFind]

/-! ### Height bound: every builder-reachable tree has depth ≤ 16 -/

theorem heightLE_childless (d : Nat) (l : Bool) (v : Option Nat) :
    heightLE (.mk [] l v) d = true := by
  cases d <;> simp [heightLE, heightLEList]

theorem heightLEList_find (d : Nat) (b : Nat) (c : Node) (cs : List (Nat × Node))
    (h : heightLEList cs d = true) (hf : dictFind b cs = some c) :
    heightLE c d = true := by
  induction cs with
  | nil => simp [dictFind] at hf
  | cons p rest ih =>
    obtain ⟨k', c'⟩ := p
    simp only [heightLEList, Bool.and_eq_true] at h
    by_cases hk : k' = b
    · subst hk
      simp [dictFind] at hf
      exact hf ▸ h.1
    · simp [dictFind, hk] at hf
      exact ih h.2 hf

theorem heightLEList_dictInsert (d k : Nat) (v : Node) (cs : List (Nat × Node))
    (hv : heightLE v d = true) (h : heightLEList cs d = true) :
    heightLEList (dictInsert k v cs) d = true := by
  induction cs with
  | nil => simp [dictInsert, heightLEList, hv]
  | cons p rest ih =>
    obtain ⟨k', c'⟩ := p
    simp only [heightLEList, Bool.and_eq_true] at h
    by_cases hk : k' = k <;>
      simp [dictInsert, hk, heightLEList, hv, h.1, h.2, ih h.2]

theorem heightLEList_rangeInsert (d lo cnt value : Nat) (cs : List (Nat × Node))
    (h : heightLEList cs d = true) :
    heightLEList (rangeInsert lo cnt value cs) d = true := by
  induction cnt generalizing lo cs with
  | zero => simpa [rangeInsert] using h
  | succ c ih =>
    exact ih (lo + 1) _ (heightLEList_dictInsert d _ _ _ (heightLE_childless d _ _) h)

theorem heightLE_addSteps (ipBytes : List Nat) (value : Nat) (steps : Int)
    (remaining : Nat) (hlen : ipBytes.length ≤ 16) (k i : Nat) (node : Node)
    (hk : k + i = steps.toNat) (hi : i ≤ 16)
    (hh : heightLE node (16 - i) = true) :
    heightLE (addSteps ipBytes value steps remaining k i node).1 (16 - i) = true := by
  induction k generalizing i node with
  | zero =>
    simp only [Nat.zero_add] at hk
    subst hk
    obtain ⟨cs, isLeaf, v⟩ := node
    simp only [addSteps, addTail]
    by_cases hr : remaining = 0
    · rw [if_pos hr]
      exact heightLE_childless _ _ _
    · rw [if_neg hr]
      by_cases hl : Node.is_leaf (.mk cs isLeaf v) = true
      · rw [if_pos hl]
        exact hh
      · rw [if_neg hl]
        cases hpi : pyIndex ipBytes steps with
        | none => exact hh
        | some tb =>
          dsimp only
          have hi16 : steps.toNat < 16 := by
            simp only [pyIndex] at hpi
            by_cases hs : 0 ≤ steps
            · rw [if_pos hs] at hpi
              obtain ⟨hlt, -⟩ := List.get?_eq_some.1 hpi
              omega
            · rw [if_neg hs] at hpi
              omega
          have h16 : 16 - steps.toNat = (16 - steps.toNat - 1) + 1 := by omega
          rw [h16] at hh ⊢
          simp only [heightLE, children_mk] at hh ⊢
          exact heightLEList_rangeInsert _ _ _ _ _ hh
  | succ k ih =>
    obtain ⟨cs, isLeaf, v⟩ := node
    simp only [addSteps]
    by_cases hl : Node.is_leaf (.mk cs isLeaf v) = true
    · rw [if_pos hl]
      exact hh
    · rw [if_neg hl]
      cases hb : ipBytes.get? i with
      | none => exact hh
      | some byte =>
        dsimp only
        obtain ⟨hlt, -⟩ := List.get?_eq_some.1 hb
        have hi16 : i < 16 := by omega
        have h16 : 16 - i = (16 - (i + 1)) + 1 := by omega
        rw [h16] at hh ⊢
        simp only [heightLE, children_mk] at hh ⊢
        have hchild : heightLE ((dictFind byte cs).getD emptyNode) (16 - (i + 1)) = true := by
          cases hf : dictFind byte cs with
          | none => exact heightLE_childless _ _ _
          | some c => simpa using heightLEList_find _ byte c cs hh hf
        have hrec := ih (i + 1) ((dictFind byte cs).getD emptyNode)
          (by omega) (by omega) hchild
        exact heightLEList_dictInsert _ _ _ _ hrec hh

theorem heightLE_addParsed (root : Node) (ipBytes : List Nat) (mask : Int)
    (value : Nat) (hlen : ipBytes.length ≤ 16)
    (hh : heightLE root 16 = true) :
    heightLE (addParsed root ipBytes mask value).1 16 = true := by
  by_cases hv : 1 ≤ value ∧ value ≤ 65535
  · simp only [addParsed, if_pos hv, addCore]
    have := heightLE_addSteps ipBytes value (Int.fdiv mask 8)
      (Int.emod mask 8).toNat hlen (Int.fdiv mask 8).toNat 0 root
      (by omega) (by omega) (by simpa using hh)
    simpa using this
  · simpa [addParsed, if_neg hv] using hh

theorem buildOps_inv_height (ops : List AddOp) (h : ∀ op ∈ ops, WFOp op) :
    invNode (buildOps ops) = true ∧ heightLE (buildOps ops) 16 = true := by
  suffices hgen : ∀ t, invNode t = true → heightLE t 16 = true →
      invNode (ops.foldl (fun t op => (addParsed t op.ipBytes op.mask op.value).1) t) = true ∧
      heightLE (ops.foldl (fun t op => (addParsed t op.ipBytes op.mask op.value).1) t) 16 = true by
    exact hgen emptyNode rfl (by rfl)
  induction ops with
  | nil => exact fun t h1 h2 => ⟨h1, h2⟩
  | cons op rest ih =>
    intro t h1 h2
    have hop := h op (by simp)
    obtain ⟨hlen, hbytes⟩ := hop
    have hlen16 : op.ipBytes.length ≤ 16 := by rcases hlen with h' | h' <;> omega
    exact ih (fun o ho => h o (by simp [ho])) _
      (invNode_addParsed _ _ _ _ hbytes h1)
      (heightLE_addParsed _ _ _ _ hlen16 h2)

/-! ### Claim C1 — prune preserves tree-walk lookup for 16-byte keys -/

theorem invList_mem (cs : List (Nat × Node)) (kc : Nat × Node)
    (h : invList cs = true) (hm : kc ∈ cs) : invNode kc.2 = true := by
  induction cs with
  | nil => simp at hm
  | cons p rest ih =>
    simp only [invList, Bool.and_eq_true] at h
    rcases List.mem_cons.1 hm with rfl | hm'
    · exact h.1
    · exact ih h.2 hm'

theorem invNode_leaf_children (n : Node) (h : invNode n = true)
    (hl : n.is_leaf = true) : n.children = [] ∧ (n.value).isSome = true := by
  obtain ⟨cs, isLeaf, v⟩ := n
  simp only [is_leaf_mk] at hl
  subst hl
  simp only [invNode, Bool.not_true, Bool.false_or, Bool.and_eq_true] at h
  obtain ⟨⟨⟨⟨he, hv⟩, -⟩, -⟩, -⟩ := h
  exact ⟨by simpa [List.isEmpty_iff] using he, hv⟩

theorem node_eta (n : Node) : Node.mk n.children n.is_leaf n.value = n := by
  obtain ⟨cs, l, v⟩ := n
  rfl

theorem treeLookup_pruneNode (key : List Nat) (t : Node) (best : Nat)
    (hinv : invNode t = true) (hh : heightLE t key.length = true)
    (hb : ∀ b ∈ key, b < 256) :
    treeLookup (pruneNode t).1 key best = treeLookup t key best := by
  induction key generalizing t best with
  | nil =>
    obtain ⟨cs, isLeaf, v⟩ := t
    simp only [List.length_nil, heightLE] at hh
    simp only [pruneNode, if_pos hh]
  | cons b rest ih =>
    obtain ⟨cs, isLeaf, v⟩ := t
    by_cases he : cs.isEmpty
    · simp only [pruneNode, if_pos he]
    · simp only [pruneNode, if_neg he]
      have hinv' := hinv
      simp only [invNode, Bool.and_eq_true] at hinv'
      obtain ⟨⟨⟨hA, hnd⟩, hbk⟩, hil⟩ := hinv'
      have hL : isLeaf = false := by
        cases isLeaf
        · rfl
        · exfalso
          simp only [Bool.not_true, Bool.false_or, Bool.and_eq_true] at hA
          exact he hA.1
      subst hL
      simp only [List.length_cons, heightLE, children_mk] at hh
      by_cases hc : ((pruneList cs (cs.length == 256) none).2.1 &&
          (pruneList cs (cs.length == 256) none).2.2.isSome) = true
      · rw [if_pos hc]
        simp only [Bool.and_eq_true, Option.isSome_iff_exists] at hc
        obtain ⟨htrue, w, hw⟩ := hc
        obtain ⟨hallinit, hleaves⟩ := pruneList_true _ _ _ htrue
        have hlen : cs.length = 256 := by simpa using hallinit
        rw [hallinit] at htrue hw
        have hiv : ∀ kc ∈ cs, (pruneNode kc.2).2 = true →
            ((pruneNode kc.2).1.value).isSome = true := by
          intro kc hkc hlf
          have hkcinv : invNode kc.2 = true := invList_mem cs kc hil hkc
          have hpinv := invNode_pruneNode kc.2 hkcinv
          rw [pruneNode_snd] at hlf
          exact (invNode_leaf_children _ hpinv hlf).2
        obtain ⟨hvals, -⟩ := pruneList_value cs none w hiv htrue hw
        rw [hallinit]
        dsimp only
        rw [hw, treeLookup_leaf]
        obtain ⟨c, hcfind⟩ := full_fanout_find cs hnd hbk hlen b (hb b (by simp))
        have hmem : (b, c) ∈ cs := dictFind_mem b c cs hcfind
        simp only [treeLookup, is_leaf_mk, children_mk, Bool.false_eq_true,
          if_false, hcfind]
        have hcinv : invNode c = true := invList_mem cs (b, c) hil hmem
        have hch : heightLE c rest.length = true := heightLEList_find _ b c cs hh hcfind
        rw [← ih c best hcinv hch (fun x hx => hb x (by simp [hx]))]
        have hcleaf : (pruneNode c).1.is_leaf = true := by
          rw [← pruneNode_snd]
          exact hleaves (b, c) hmem
        have hcval : (pruneNode c).1.value = some w := hvals (b, c) hmem
        have hcch : (pruneNode c).1.children = [] :=
          (invNode_leaf_children _ (invNode_pruneNode c hcinv) hcleaf).1
        have hcshape : (pruneNode c).1 = .mk [] true (some w) := by
          rw [← node_eta (pruneNode c).1, hcleaf, hcval, hcch]
        rw [hcshape, treeLookup_leaf]
      · rw [if_neg hc]
        simp only [treeLookup, is_leaf_mk, children_mk, Bool.false_eq_true, if_false]
        rw [pruneList_fst, dictFind_pruneMap]
        cases hf : dictFind b cs with
        | none => simp
        | some c =>
          simp only [Option.map_some']
          exact ih c best (invList_mem cs (b, c) hil (dictFind_mem b c cs hf))
            (heightLEList_find _ b c cs hh hf) (fun x hx => hb x (by simp [hx]))

/-- Claim C1, amended — pruning is semantics-preserving for 16-byte keys:
for every builder-reachable tree and every 16-byte key, the byte-wise walk
recording the deepest leaf value met (0 if none) is identical before and
after `_prune`.  (As stated, including 4-byte keys, the claim is false:
see the counterexample, where IPv6-inserted structure below depth 4
collapses into the node at which a 4-byte key's walk ends.) -/
theorem C1_amended_prune_preserves_16B_lookup (t : Node) (key : List Nat)
    (hr : Reachable t) (hlen : key.length = 16) (hb : ∀ b ∈ key, b < 256) :
    treeLookup (pruneNode t).1 key 0 = treeLookup t key 0 := by
  obtain ⟨ops, hops, rfl⟩ := hr
  obtain ⟨hinv, hh⟩ := buildOps_inv_height ops hops
  have hh' : heightLE (buildOps ops) key.length = true := by rw [hlen]; exact hh
  exact treeLookup_pruneNode key (buildOps ops) 0 hinv hh' hb

/-- Witness for the amended C1 at a concrete input: one `/32` insert and a
16-byte key. -/
theorem C1_amended_prune_preserves_16B_lookup_witness :
    treeLookup (pruneNode (buildOps [⟨[1, 2, 3, 4], 32, 5⟩])).1
        [1, 2, 3, 4, 0, 0, 0, 0, 0, 0, 0, 0, 0, 0, 0, 0] 0 =
      treeLookup (buildOps [⟨[1, 2, 3, 4], 32, 5⟩])
        [1, 2, 3, 4, 0, 0, 0, 0, 0, 0, 0, 0, 0, 0, 0, 0] 0 :=
  C1_amended_prune_preserves_16B_lookup (buildOps [⟨[1, 2, 3, 4], 32, 5⟩])
    [1, 2, 3, 4, 0, 0, 0, 0, 0, 0, 0, 0, 0, 0, 0, 0]
    ⟨[⟨[1, 2, 3, 4], 32, 5⟩], by
      intro op hop
      simp only [List.mem_singleton] at hop
      subst hop
      exact ⟨Or.inl rfl, by decide⟩, rfl⟩
    (by decide) (by decide)

set_option maxRecDepth 1000000 in
/-- Counterexample for C1 as stated: after the two IPv6 `/33` insertions
with bytes `[1,2,3,4,0,…]` and `[1,2,3,4,128,…]` and tag 7, the node at
path `[1,2,3,4]` has 256 identical leaf children; `_prune` collapses it
into a leaf, so the 4-byte key `[1,2,3,4]` (i.e. the IPv4 address 1.2.3.4)
looks up 0 before pruning but 7 after. -/
theorem C1_counterexample_4B_key :
    treeLookup (pruneNode ((addParsed
        ((addParsed emptyNode [1, 2, 3, 4, 0, 0, 0, 0, 0, 0, 0, 0, 0, 0, 0, 0] 33 7).1)
        [1, 2, 3, 4, 128, 0, 0, 0, 0, 0, 0, 0, 0, 0, 0, 0] 33 7).1)).1
        [1, 2, 3, 4] 0 ≠
      treeLookup ((addParsed
        ((addParsed emptyNode [1, 2, 3, 4, 0, 0, 0, 0, 0, 0, 0, 0, 0, 0, 0, 0] 33 7).1)
        [1, 2, 3, 4, 128, 0, 0, 0, 0, 0, 0, 0, 0, 0, 0, 0] 33 7).1)
        [1, 2, 3, 4] 0 := by
  decide

/-! ### Dictionary reads are insertion-order independent on nodup keys -/

theorem nodup_nodupKeys (cs : List (Nat × Node)) (h : (keysOf cs).Nodup) :
    nodupKeys cs = true := by
  induction cs with
  | nil => rfl
  | cons p rest ih =>
    obtain ⟨k, c⟩ := p
    rw [keysOf_cons, List.nodup_cons] at h
    simp only [nodupKeys, Bool.and_eq_true]
    refine ⟨?_, ih h.2⟩
    simp only [Bool.not_eq_true']
    rw [List.contains_eq_any_beq]
    simp only [List.any_eq_false]
    intro x hx
    simp only [beq_iff_eq]
    intro hxk
    exact h.1 (hxk ▸ hx)

theorem keysOf_perm (cs₁ cs₂ : List (Nat × Node)) (h : cs₁.Perm cs₂) :
    (keysOf cs₁).Perm (keysOf cs₂) := h.map _

theorem nodupKeys_sortedChildren (cs : List (Nat × Node))
    (h : nodupKeys cs = true) : nodupKeys (sortedChildren cs) = true := by
  apply nodup_nodupKeys
  have hperm := keysOf_perm _ _ (List.perm_insertionSort
    (fun a b : Nat × Node => a.1 ≤ b.1) cs)
  exact hperm.nodup_iff.2 (nodupKeys_nodup cs h)

theorem bytesKeys_iff_mem (cs : List (Nat × Node)) :
    bytesKeys cs = true ↔ ∀ kc ∈ cs, kc.1 < 256 := by
  induction cs with
  | nil => simp [bytesKeys]
  | cons p rest ih =>
    obtain ⟨k, c⟩ := p
    simp only [bytesKeys, Bool.and_eq_true, decide_eq_true_eq, ih, List.mem_cons]
    constructor
    · rintro ⟨h1, h2⟩ kc (rfl | hm)
      · exact h1
      · exact h2 kc hm
    · intro h
      exact ⟨h (k, c) (Or.inl rfl), fun kc hm => h kc (Or.inr hm)⟩

theorem bytesKeys_sortedChildren (cs : List (Nat × Node))
    (h : bytesKeys cs = true) : bytesKeys (sortedChildren cs) = true := by
  rw [bytesKeys_iff_mem] at h ⊢
  intro kc hm
  exact h kc ((List.perm_insertionSort (fun a b : Nat × Node => a.1 ≤ b.1) cs).mem_iff.1 hm)

theorem dictFind_eq_some_iff_mem (k : Nat) (c : Node) (cs : List (Nat × Node))
    (hnd : nodupKeys cs = true) : dictFind k cs = some c ↔ (k, c) ∈ cs := by
  constructor
  · exact dictFind_mem k c cs
  · intro hm
    induction cs with
    | nil => simp at hm
    | cons p rest ih =>
      obtain ⟨k', c'⟩ := p
      simp only [nodupKeys, Bool.and_eq_true] at hnd
      rcases List.mem_cons.1 hm with heq | hm'
      · injection heq with h1 h2
        subst h1
        subst h2
        simp [dictFind]
      · have hk : k' ≠ k := by
          intro heqk
          subst heqk
          have h1 := hnd.1
          simp only [Bool.not_eq_true'] at h1
          rw [List.contains_eq_any_beq] at h1
          simp only [List.any_eq_false] at h1
          have hmem : k' ∈ keysOf rest := List.mem_map.2 ⟨(k', c), hm', rfl⟩
          have := h1 k' hmem
          simp at this
        simp only [dictFind, if_neg hk]
        exact ih hnd.2 hm'

theorem dictFind_sortedChildren (b : Nat) (cs : List (Nat × Node))
    (hnd : nodupKeys cs = true) :
    dictFind b (sortedChildren cs) = dictFind b cs := by
  have hperm := List.perm_insertionSort (fun a b : Nat × Node => a.1 ≤ b.1) cs
  have hnds : nodupKeys (sortedChildren cs) = true := nodupKeys_sortedChildren cs hnd
  cases hf : dictFind b cs with
  | some c =>
    rw [dictFind_eq_some_iff_mem b c _ hnds]
    exact hperm.mem_iff.2 (dictFind_mem b c cs hf)
  | none =>
    apply dictFind_none_of_not_mem
    intro hmem
    obtain ⟨c, hc⟩ := dictFind_isSome_of_mem b _ hmem
    have : (b, c) ∈ cs := hperm.mem_iff.1 (dictFind_mem _ _ _ hc)
    have : b ∈ keysOf cs := List.mem_map.2 ⟨(b, c), this, rfl⟩
    obtain ⟨c', hc'⟩ := dictFind_isSome_of_mem b cs this
    rw [hf] at hc'
    exact absurd hc' (by simp)

/-! ### Bitmap bit characterization (claims C6/C7) -/

theorem testBit_bmBit (k b : Nat) (hk : k < 256) (hb : b < 256) :
    (bmBit k).testBit (255 - b) = true ↔ k = b := by
  rw [bmBit, Nat.shiftLeft_eq, Nat.one_mul, Nat.testBit_two_pow]
  simp only [decide_eq_true_eq]
  omega

theorem testBit_childMask (cs : List (Nat × Node)) (b : Nat)
    (hnd : nodupKeys cs = true) (hbk : bytesKeys cs = true) (hb : b < 256) :
    ((childMask cs).testBit (255 - b) = true) ↔
      ∃ c, dictFind b cs = some c ∧ c.children ≠ [] := by
  induction cs with
  | nil =>
    simp [childMask, Nat.zero_testBit, dictFind]
  | cons p rest ih =>
    obtain ⟨k, c⟩ := p
    simp only [nodupKeys, Bool.and_eq_true] at hnd
    simp only [bytesKeys, Bool.and_eq_true, decide_eq_true_eq] at hbk
    simp only [childMask, Nat.testBit_or, Bool.or_eq_true]
    by_cases hk : k = b
    · subst hk
      have hfind : dictFind k rest = none := by
        apply dictFind_none_of_not_mem
        intro hmem
        have := hnd.1
        simp only [Bool.not_eq_true'] at this
        rw [List.contains_eq_any_beq] at this
        simp only [List.any_eq_false] at this
        have := this k hmem
        simp at this
      constructor
      · rintro (h1 | h1)
        · by_cases hcc : c.children.isEmpty
          · rw [if_pos hcc] at h1
            simp [Nat.zero_testBit] at h1
          · refine ⟨c, by simp [dictFind], ?_⟩
            simpa [List.isEmpty_iff] using hcc
        · obtain ⟨c', hc', hcc'⟩ := (ih hnd.2 hbk.2).1 h1
          rw [hfind] at hc'
          exact absurd hc' (by simp)
      · rintro ⟨c', hc', hcc'⟩
        have hfk : dictFind k ((k, c) :: rest) = some c := by simp [dictFind]
        rw [hfk] at hc'
        injection hc' with hceq
        rw [← hceq] at hcc'
        left
        rw [if_neg (by simpa [List.isEmpty_iff] using hcc')]
        exact (testBit_bmBit k k hbk.1 hb).2 rfl
    · constructor
      · rintro (h1 | h1)
        · by_cases hcc : c.children.isEmpty
          · rw [if_pos hcc] at h1
            simp [Nat.zero_testBit] at h1
          · rw [if_neg hcc] at h1
            exact absurd ((testBit_bmBit k b hbk.1 hb).1 h1) hk
        · obtain ⟨c', hc', hcc'⟩ := (ih hnd.2 hbk.2).1 h1
          exact ⟨c', by simp [dictFind, hk, hc'], hcc'⟩
      · rintro ⟨c', hc', hcc'⟩
        simp only [dictFind, if_neg hk] at hc'
        right
        exact (ih hnd.2 hbk.2).2 ⟨c', hc', hcc'⟩

theorem testBit_leafMask (cs : List (Nat × Node)) (b : Nat)
    (hnd : nodupKeys cs = true) (hbk : bytesKeys cs = true) (hb : b < 256) :
    ((leafMask cs).testBit (255 - b) = true) ↔
      ∃ c, dictFind b cs = some c ∧ c.is_leaf = true := by
  induction cs with
  | nil =>
    simp [leafMask, Nat.zero_testBit, dictFind]
  | cons p rest ih =>
    obtain ⟨k, c⟩ := p
    simp only [nodupKeys, Bool.and_eq_true] at hnd
    simp only [bytesKeys, Bool.and_eq_true, decide_eq_true_eq] at hbk
    simp only [leafMask, Nat.testBit_or, Bool.or_eq_true]
    by_cases hk : k = b
    · subst hk
      have hfind : dictFind k rest = none := by
        apply dictFind_none_of_not_mem
        intro hmem
        have := hnd.1
        simp only [Bool.not_eq_true'] at this
        rw [List.contains_eq_any_beq] at this
        simp only [List.any_eq_false] at this
        have := this k hmem
        simp at this
      constructor
      · rintro (h1 | h1)
        · by_cases hcl : c.is_leaf = true
          · exact ⟨c, by simp [dictFind], hcl⟩
          · rw [if_neg hcl] at h1
            simp [Nat.zero_testBit] at h1
        · obtain ⟨c', hc', hcl'⟩ := (ih hnd.2 hbk.2).1 h1
          rw [hfind] at hc'
          exact absurd hc' (by simp)
      · rintro ⟨c', hc', hcl'⟩
        have hfk : dictFind k ((k, c) :: rest) = some c := by simp [dictFind]
        rw [hfk] at hc'
        injection hc' with hceq
        rw [← hceq] at hcl'
        left
        rw [if_pos hcl']
        exact (testBit_bmBit k k hbk.1 hb).2 rfl
    · constructor
      · rintro (h1 | h1)
        · by_cases hcl : c.is_leaf = true
          · rw [if_pos hcl] at h1
            exact absurd ((testBit_bmBit k b hbk.1 hb).1 h1) hk
          · rw [if_neg hcl] at h1
            simp [Nat.zero_testBit] at h1
        · obtain ⟨c', hc', hcl'⟩ := (ih hnd.2 hbk.2).1 h1
          exact ⟨c', by simp [dictFind, hk, hc'], hcl'⟩
      · rintro ⟨c', hc', hcl'⟩
        simp only [dictFind, if_neg hk] at hc'
        right
        exact (ih hnd.2 hbk.2).2 ⟨c', hc', hcl'⟩

/-! ### Serialisation structure: records, bases and the value table -/

theorem serLayer_rec_spec (layer : List Node) (st : SerState) :
    ∀ r ∈ (serLayer layer st).1, r.node ∈ layer ∧
      r.childBM = childMask (sortedChildren r.node.children) ∧
      r.leafBM = leafMask (sortedChildren r.node.children) := by
  induction layer generalizing st with
  | nil => simp [serLayer]
  | cons n rest ih =>
    intro r hr
    simp only [serLayer] at hr
    rcases List.mem_cons.1 hr with rfl | hm
    · exact ⟨List.mem_cons_self _ _, rfl, rfl⟩
    · obtain ⟨h1, h2, h3⟩ := ih _ r hm
      exact ⟨List.mem_cons_of_mem _ h1, h2, h3⟩

theorem serLayer_next_spec (layer : List Node) (st : SerState) :
    ∀ m ∈ (serLayer layer st).2.2,
      ∃ n ∈ layer, ∃ kc ∈ n.children, m = kc.2 := by
  induction layer generalizing st with
  | nil => simp [serLayer]
  | cons n rest ih =>
    intro m hm
    simp only [serLayer] at hm
    rcases List.mem_append.1 hm with hm1 | hm2
    · simp only [buildRec, innerChildren, List.mem_map] at hm1
      obtain ⟨kc, hkc, rfl⟩ := hm1
      have hkc' : kc ∈ sortedChildren n.children := List.mem_of_mem_filter hkc
      have hmem : kc ∈ n.children :=
        (List.perm_insertionSort (fun a b : Nat × Node => a.1 ≤ b.1) _).mem_iff.1 hkc'
      exact ⟨n, List.mem_cons_self _ _, kc, hmem, rfl⟩
    · obtain ⟨nn, hnn, kc, hkc, rfl⟩ := ih _ m hm2
      exact ⟨nn, List.mem_cons_of_mem _ hnn, kc, hkc, rfl⟩

theorem invNode_children_mem (n : Node) (kc : Nat × Node)
    (h : invNode n = true) (hm : kc ∈ n.children) : invNode kc.2 = true := by
  obtain ⟨cs, l, v⟩ := n
  simp only [invNode, Bool.and_eq_true] at h
  exact invList_mem cs kc h.2 hm

theorem serAll_rec_spec (layer : List Node) (st : SerState)
    (hinv : ∀ n ∈ layer, invNode n = true) :
    ∀ r ∈ serAll layer st, invNode r.node = true ∧
      r.childBM = childMask (sortedChildren r.node.children) ∧
      r.leafBM = leafMask (sortedChildren r.node.children) := by
  match layer with
  | [] =>
    rw [serAll]
    simp
  | n :: rest =>
    rw [serAll]
    intro r hr
    rcases List.mem_append.1 hr with hr1 | hr2
    · obtain ⟨hmem, hcb, hlb⟩ := serLayer_rec_spec _ _ r hr1
      exact ⟨hinv _ hmem, hcb, hlb⟩
    · have hinv' : ∀ m ∈ (serLayer (n :: rest) st).2.2, invNode m = true := by
        intro m hm
        obtain ⟨nn, hnn, kc, hkc, rfl⟩ := serLayer_next_spec _ _ m hm
        exact invNode_children_mem nn kc (hinv nn hnn) hkc
      exact serAll_rec_spec _ _ hinv' r hr2
  termination_by layerSize layer
  decreasing_by
    have h := serLayer_next_size (n :: rest) st
    simp only [List.length_cons] at h
    simp only [layerSize] at *
    omega

theorem serLayer_bases (layer : List Node) (st : SerState) :
    basesAligned (serLayer layer st).1 st.vlen ∧
    (serLayer layer st).2.1.vlen = st.vlen + (flatVals (serLayer layer st).1).length := by
  induction layer generalizing st with
  | nil => simp [serLayer, basesAligned, flatVals]
  | cons n rest ih =>
    obtain ⟨ih1, ih2⟩ := ih (buildRec n st).2.1
    constructor
    · exact ⟨rfl, ih1⟩
    · simp only [serLayer, flatVals, List.length_append]
      rw [ih2]
      simp only [buildRec]
      omega

theorem basesAligned_append (A B : List NodeRec) (v : Nat)
    (hA : basesAligned A v) (hB : basesAligned B (v + (flatVals A).length)) :
    basesAligned (A ++ B) v := by
  induction A generalizing v with
  | nil => simpa [flatVals] using hB
  | cons r A' ih =>
    obtain ⟨h1, h2⟩ := hA
    refine ⟨h1, ih _ h2 ?_⟩
    have : v + (flatVals (r :: A')).length =
        v + (leafVals (sortedChildren r.node.children)).length + (flatVals A').length := by
      simp [flatVals]
      omega
    rw [← this]
    exact hB

theorem serAll_bases (layer : List Node) (st : SerState) :
    basesAligned (serAll layer st) st.vlen := by
  match layer with
  | [] =>
    rw [serAll]
    simp [basesAligned]
  | n :: rest =>
    rw [serAll]
    obtain ⟨h1, h2⟩ := serLayer_bases (n :: rest) st
    apply basesAligned_append _ _ _ h1
    rw [← h2]
    exact serAll_bases _ _
  termination_by layerSize layer
  decreasing_by
    have h := serLayer_next_size (n :: rest) st
    simp only [List.length_cons] at h
    simp only [layerSize] at *
    omega

theorem basesAligned_ge (recs : List NodeRec) (v : Nat) (h : basesAligned recs v)
    (r : NodeRec) (hr : r ∈ recs) : v ≤ r.base := by
  induction recs generalizing v with
  | nil => simp at hr
  | cons r0 rest ih =>
    obtain ⟨h1, h2⟩ := h
    rcases List.mem_cons.1 hr with rfl | hm
    · omega
    · have := ih _ h2 hm
      omega

theorem basesAligned_get (recs : List NodeRec) (v : Nat) (h : basesAligned recs v)
    (r : NodeRec) (hr : r ∈ recs) (i : Nat)
    (hi : i < (leafVals (sortedChildren r.node.children)).length) :
    (flatVals recs).get? (r.base + i - v) =
      (leafVals (sortedChildren r.node.children)).get? i := by
  induction recs generalizing v with
  | nil => simp at hr
  | cons r0 rest ih =>
    obtain ⟨h1, h2⟩ := h
    rcases List.mem_cons.1 hr with rfl | hm
    · subst h1
      have hidx : r.base + i - r.base = i := by omega
      rw [hidx]
      simp only [flatVals]
      rw [List.get?_append (by omega)]
    · have hge : v + (leafVals (sortedChildren r0.node.children)).length ≤ r.base :=
        basesAligned_ge rest _ h2 r hm
      simp only [flatVals]
      rw [List.get?_append_right (by omega)]
      have harith : r.base + i - v - (leafVals (sortedChildren r0.node.children)).length =
          r.base + i - (v + (leafVals (sortedChildren r0.node.children)).length) := by
        omega
      rw [harith]
      exact ih _ h2 hm

theorem invNode_parts (n : Node) (h : invNode n = true) :
    nodupKeys n.children = true ∧ bytesKeys n.children = true ∧
      invList n.children = true := by
  obtain ⟨cs, l, v⟩ := n
  simp only [invNode, Bool.and_eq_true] at h
  exact ⟨h.1.1.2, h.1.2, h.2⟩

/-- Claim C6 — record encoding discipline of `save`.  For every node
record the artifact contains: (1) bit `255 - b` of the child bitmap is set
iff the child at byte key `b` itself has children, and bit `255 - b` of
the leaf bitmap is set iff the child at byte key `b` is a leaf (the
bitmaps are emitted as 32-byte big-endian integers, `encodeRec`); (2) the
node's leaf children are processed in ascending byte-key order; and (3)
value-table entry `leaf_base_index + i` holds the value of the leaf child
with the `i`-th smallest byte key of that node. -/
theorem C6_record_encoding_discipline (t : Node) (hr : Reachable t) :
    ∀ r ∈ saveRecords t,
      (∀ b, b < 256 →
        ((r.childBM.testBit (255 - b) = true) ↔
          (∃ c, dictFind b r.node.children = some c ∧ c.children ≠ [])) ∧
        ((r.leafBM.testBit (255 - b) = true) ↔
          (∃ c, dictFind b r.node.children = some c ∧ c.is_leaf = true))) ∧
      List.Sorted (fun a b : Nat × Node => a.1 ≤ b.1)
        ((sortedChildren r.node.children).filter (fun kc => kc.2.is_leaf)) ∧
      (∀ i, ∀ hi : i < ((sortedChildren r.node.children).filter
          (fun kc => kc.2.is_leaf)).length,
        (saveValues t).get? (r.base + i) =
          some ((((sortedChildren r.node.children).filter
            (fun kc => kc.2.is_leaf)).get ⟨i, hi⟩).2.value)) := by
  obtain ⟨ops, hops, rfl⟩ := hr
  have hinvroot := (buildOps_inv_height ops hops).1
  have hinvp : invNode (pruneNode (buildOps ops)).1 = true :=
    invNode_pruneNode _ hinvroot
  intro r hrmem
  have hone : ∀ n ∈ [(pruneNode (buildOps ops)).1], invNode n = true := by
    intro n hn
    rcases List.mem_singleton.1 hn with rfl
    exact hinvp
  obtain ⟨hrinv, hcb, hlb⟩ := serAll_rec_spec _ _ hone r hrmem
  obtain ⟨hnd, hbk, hil⟩ := invNode_parts r.node hrinv
  have hnds := nodupKeys_sortedChildren _ hnd
  have hbks := bytesKeys_sortedChildren _ hbk
  refine ⟨?_, ?_, ?_⟩
  · intro b hb
    rw [hcb, hlb]
    constructor
    · rw [testBit_childMask _ b hnds hbks hb, dictFind_sortedChildren b _ hnd]
    · rw [testBit_leafMask _ b hnds hbks hb, dictFind_sortedChildren b _ hnd]
  · have hsorted : List.Sorted (fun a b : Nat × Node => a.1 ≤ b.1)
        (sortedChildren r.node.children) := by
      haveI h1 : IsTotal (Nat × Node) (fun a b => a.1 ≤ b.1) :=
        ⟨fun a b => Nat.le_total a.1 b.1⟩
      haveI h2 : IsTrans (Nat × Node) (fun a b => a.1 ≤ b.1) :=
        ⟨fun a b c hab hbc => le_trans hab hbc⟩
      exact List.sorted_insertionSort _ _
    exact List.Pairwise.sublist (List.filter_sublist _) hsorted
  · intro i hi
    have hba := serAll_bases [(pruneNode (buildOps ops)).1] ⟨16 + 72, 0⟩
    have hi' : i < (leafVals (sortedChildren r.node.children)).length := by
      simpa [leafVals, List.length_map] using hi
    have hg := basesAligned_get _ 0 hba r hrmem i hi'
    rw [Nat.sub_zero] at hg
    have hsv : saveValues (buildOps ops) =
        flatVals (serAll [(pruneNode (buildOps ops)).1] ⟨16 + 72, 0⟩) := rfl
    rw [hsv, hg]
    simp only [leafVals, List.get?_map]
    rw [List.get?_eq_get hi]
    simp

/-- Witness for C6 at a concrete builder state: `0.0.0.0/8` with tag 5
serialises to the single record `⟨root, 0, bmBit 0, 0, 0⟩`, instantiated
at byte key 0 and leaf index 0. -/
theorem C6_record_encoding_discipline_witness :
    (0 : Nat) < 256 ∧
    (((⟨Node.mk [(0, Node.mk [] true (some 5))] false none, 0, bmBit 0, 0, 0⟩ :
        NodeRec).childBM.testBit (255 - 0) = true) ↔
      (∃ c, dictFind 0 (⟨Node.mk [(0, Node.mk [] true (some 5))] false none,
          0, bmBit 0, 0, 0⟩ : NodeRec).node.children = some c ∧
        c.children ≠ [])) ∧
    (((⟨Node.mk [(0, Node.mk [] true (some 5))] false none, 0, bmBit 0, 0, 0⟩ :
        NodeRec).leafBM.testBit (255 - 0) = true) ↔
      (∃ c, dictFind 0 (⟨Node.mk [(0, Node.mk [] true (some 5))] false none,
          0, bmBit 0, 0, 0⟩ : NodeRec).node.children = some c ∧
        c.is_leaf = true)) ∧
    List.Sorted (fun a b : Nat × Node => a.1 ≤ b.1)
      ((sortedChildren (⟨Node.mk [(0, Node.mk [] true (some 5))] false none,
        0, bmBit 0, 0, 0⟩ : NodeRec).node.children).filter
          (fun kc => kc.2.is_leaf)) ∧
    (saveValues (buildOps [⟨[0, 0, 0, 0], 8, 5⟩])).get?
        ((⟨Node.mk [(0, Node.mk [] true (some 5))] false none, 0, bmBit 0, 0,
          0⟩ : NodeRec).base + 0) =
      some ((((sortedChildren (⟨Node.mk [(0, Node.mk [] true (some 5))] false
          none, 0, bmBit 0, 0, 0⟩ : NodeRec).node.children).filter
        (fun kc => kc.2.is_leaf)).get ⟨0, by decide⟩).2.value) := by
  have hrecs : saveRecords (buildOps [⟨[0, 0, 0, 0], 8, 5⟩]) =
      [⟨Node.mk [(0, Node.mk [] true (some 5))] false none, 0, bmBit 0, 0,
        0⟩] := by
    have hshape : (pruneNode (buildOps [⟨[0, 0, 0, 0], 8, 5⟩])).1 =
        Node.mk [(0, Node.mk [] true (some 5))] false none := by rfl
    rw [saveRecords, recordsOf, hshape, serAll]
    simp [serLayer, buildRec, sortedChildren, leafVals, innerChildren,
      childMask, leafMask, List.insertionSort, List.orderedInsert]
    rw [serAll]
  have h := C6_record_encoding_discipline (buildOps [⟨[0, 0, 0, 0], 8, 5⟩])
    ⟨[⟨[0, 0, 0, 0], 8, 5⟩], by
      intro op hop
      rcases List.mem_singleton.1 hop with rfl
      exact ⟨Or.inl rfl, by decide⟩, rfl⟩
    ⟨Node.mk [(0, Node.mk [] true (some 5))] false none, 0, bmBit 0, 0, 0⟩
    (by rw [hrecs]; exact List.mem_singleton.2 rfl)
  exact ⟨by decide, (h.1 0 (by decide)).1, (h.1 0 (by decide)).2, h.2.1,
    h.2.2 0 (by decide)⟩

/-- Claim C7 — in every artifact produced by `save` (which prunes first),
no node record has both the child bit and the leaf bit set for the same
byte key. -/
theorem C7_no_byte_has_both_bits (t : Node) (hr : Reachable t) :
    ∀ r ∈ saveRecords t, ∀ b, b < 256 →
      ¬(r.childBM.testBit (255 - b) = true ∧
        r.leafBM.testBit (255 - b) = true) := by
  obtain ⟨ops, hops, rfl⟩ := hr
  have hinvroot := (buildOps_inv_height ops hops).1
  have hinvp : invNode (pruneNode (buildOps ops)).1 = true :=
    invNode_pruneNode _ hinvroot
  intro r hrmem b hb
  have hone : ∀ n ∈ [(pruneNode (buildOps ops)).1], invNode n = true := by
    intro n hn
    rcases List.mem_singleton.1 hn with rfl
    exact hinvp
  obtain ⟨hrinv, hcb, hlb⟩ := serAll_rec_spec _ _ hone r hrmem
  obtain ⟨hnd, hbk, hil⟩ := invNode_parts r.node hrinv
  have hnds := nodupKeys_sortedChildren _ hnd
  have hbks := bytesKeys_sortedChildren _ hbk
  rintro ⟨hcbit, hlbit⟩
  rw [hcb] at hcbit
  rw [hlb] at hlbit
  obtain ⟨c, hcf, hcc⟩ := (testBit_childMask _ b hnds hbks hb).1 hcbit
  obtain ⟨c', hcf', hcl⟩ := (testBit_leafMask _ b hnds hbks hb).1 hlbit
  rw [hcf] at hcf'
  injection hcf' with hceq
  subst hceq
  rw [dictFind_sortedChildren b _ hnd] at hcf
  have hcinv : invNode c = true :=
    invNode_children_mem r.node (b, c) hrinv (dictFind_mem _ _ _ hcf)
  exact hcc (invNode_leaf_children c hcinv hcl).1

/-- Witness for C7 at a concrete builder state: `1.1.1.1/8` with tag 7
serialises to the single record `⟨root, 0, bmBit 1, 0, 0⟩`; byte 1 does
not have both bits set there. -/
theorem C7_no_byte_has_both_bits_witness :
    (1 : Nat) < 256 ∧
    ¬((⟨Node.mk [(1, Node.mk [] true (some 7))] false none, 0, bmBit 1, 0, 0⟩ :
        NodeRec).childBM.testBit (255 - 1) = true ∧
      (⟨Node.mk [(1, Node.mk [] true (some 7))] false none, 0, bmBit 1, 0, 0⟩ :
        NodeRec).leafBM.testBit (255 - 1) = true) := by
  refine ⟨by decide, ?_⟩
  have hrecs : saveRecords (buildOps [⟨[1, 1, 1, 1], 8, 7⟩]) =
      [⟨Node.mk [(1, Node.mk [] true (some 7))] false none, 0, bmBit 1, 0,
        0⟩] := by
    have hshape : (pruneNode (buildOps [⟨[1, 1, 1, 1], 8, 7⟩])).1 =
        Node.mk [(1, Node.mk [] true (some 7))] false none := by rfl
    rw [saveRecords, recordsOf, hshape, serAll]
    simp [serLayer, buildRec, sortedChildren, leafVals, innerChildren,
      childMask, leafMask, List.insertionSort, List.orderedInsert]
    rw [serAll]
  exact C7_no_byte_has_both_bits (buildOps [⟨[1, 1, 1, 1], 8, 7⟩])
    ⟨[⟨[1, 1, 1, 1], 8, 7⟩], by
      intro op hop
      rcases List.mem_singleton.1 hop with rfl
      exact ⟨Or.inl rfl, by decide⟩, rfl⟩
    _ (by rw [hrecs]; exact List.mem_singleton.2 rfl) 1 (by decide)

/-! ### Claim C10 — a leaf root serialises to a single all-zero record -/

set_option maxRecDepth 100000 in
/-- Claim C10 — if the root node is a leaf when `save` serialises (for
example after adding a `/0` prefix, or after pruning collapses a full
fan-out into the root), the artifact is exactly the 16-byte header with
`node_cnt = 1`, `val_cnt = 0` followed by one all-zero 72-byte record: the
root's own tag appears nowhere in the file (the value table is empty), and
the documented reader lookup returns 0 for every key. -/
theorem C10_leaf_root_loses_tag (t : Node) (hinv : invNode t = true)
    (hleaf : (pruneNode t).1.is_leaf = true) :
    saveBytes t = headerBytes 1 0 ++ List.replicate 72 0 ∧
    saveValues t = [] ∧
    (∀ key best, readerLookup (saveRecords t) (saveValues t) 0 key best = best) := by
  have hpinv : invNode (pruneNode t).1 = true := invNode_pruneNode t hinv
  obtain ⟨hch, hvs⟩ := invNode_leaf_children _ hpinv hleaf
  obtain ⟨v, hv⟩ := Option.isSome_iff_exists.1 hvs
  have hshape : (pruneNode t).1 = .mk [] true (some v) := by
    rw [← node_eta (pruneNode t).1, hch, hleaf, hv]
  have hrecs : saveRecords t = [⟨.mk [] true (some v), 0, 0, 0, 0⟩] := by
    rw [saveRecords, recordsOf, hshape, serAll]
    simp [serLayer, buildRec, sortedChildren, leafVals, innerChildren,
      childMask, leafMask]
    rw [serAll]
  have hvals : saveValues t = [] := by
    rw [saveValues, hrecs]
    rfl
  refine ⟨?_, hvals, ?_⟩
  · rw [saveBytes]
    rw [hrecs, hvals]
    have he : ∀ n : Node, encodeRec ⟨n, 0, 0, 0, 0⟩ = List.replicate 72 0 :=
      fun n => by
        show toBytesBE 32 0 ++ toBytesBE 32 0 ++ u32le 0 ++ u32le 0 =
          List.replicate 72 0
        decide
    simp only [List.map_cons, List.map_nil, he, List.length_cons,
      List.length_nil]
    rfl
  · intro key best
    rw [hrecs, hvals]
    cases key with
    | nil => rfl
    | cons b rest =>
      simp [readerLookup, Nat.zero_testBit]

/-- Witness for C10: adding `0.0.0.0/0` with tag 3 makes the root a leaf;
the artifact is the zero record and every lookup misses. -/
theorem C10_leaf_root_loses_tag_witness :
    saveBytes (addParsed emptyNode [0, 0, 0, 0] 0 3).1 =
        headerBytes 1 0 ++ List.replicate 72 0 ∧
    saveValues (addParsed emptyNode [0, 0, 0, 0] 0 3).1 = [] ∧
    (∀ key best, readerLookup (saveRecords (addParsed emptyNode [0, 0, 0, 0] 0 3).1)
      (saveValues (addParsed emptyNode [0, 0, 0, 0] 0 3).1) 0 key best = best) :=
  C10_leaf_root_loses_tag (addParsed emptyNode [0, 0, 0, 0] 0 3).1
    (by decide) (by decide)

/-! ### Claim C9 — the artifact depends only on the canonical tree -/

theorem canonList_eq_map (l : List (Nat × Node)) :
    canonList l = l.map (fun kc => (kc.1, canonNode kc.2)) := by
  induction l with
  | nil => rfl
  | cons p rest ih =>
    obtain ⟨k, c⟩ := p
    simp [canonList, ih]

theorem canonList_length (l : List (Nat × Node)) :
    (canonList l).length = l.length := by
  rw [canonList_eq_map, List.length_map]

theorem sortedChildren_length (l : List (Nat × Node)) :
    (sortedChildren l).length = l.length :=
  List.length_insertionSort _ l

theorem mem_sortedChildren (x : Nat × Node) (l : List (Nat × Node)) :
    x ∈ sortedChildren l ↔ x ∈ l :=
  (List.perm_insertionSort _ l).mem_iff

theorem orderedInsert_map_fst (G : Nat × Node → Nat × Node)
    (hG : ∀ x, (G x).1 = x.1) (a : Nat × Node) (l : List (Nat × Node)) :
    List.orderedInsert (fun x y => x.1 ≤ y.1) (G a) (l.map G) =
      (List.orderedInsert (fun x y => x.1 ≤ y.1) a l).map G := by
  induction l with
  | nil => simp [List.orderedInsert]
  | cons b rest ih =>
    simp only [List.map_cons, List.orderedInsert, hG]
    by_cases h : a.1 ≤ b.1
    · simp [h]
    · simp [h, ih]

theorem sortedChildren_map_fst (G : Nat × Node → Nat × Node)
    (hG : ∀ x, (G x).1 = x.1) (l : List (Nat × Node)) :
    sortedChildren (l.map G) = (sortedChildren l).map G := by
  induction l with
  | nil => rfl
  | cons a rest ih =>
    simp only [sortedChildren, List.map_cons, List.insertionSort] at ih ⊢
    rw [ih, orderedInsert_map_fst G hG]

theorem sortedChildren_canonList (l : List (Nat × Node)) :
    sortedChildren (canonList l) = canonList (sortedChildren l) := by
  rw [canonList_eq_map, canonList_eq_map]
  exact sortedChildren_map_fst (fun kc => (kc.1, canonNode kc.2))
    (fun x => rfl) l

theorem sortedChildren_idem (l : List (Nat × Node)) :
    sortedChildren (sortedChildren l) = sortedChildren l := by
  haveI h1 : IsTotal (Nat × Node) (fun a b => a.1 ≤ b.1) :=
    ⟨fun a b => Nat.le_total a.1 b.1⟩
  haveI h2 : IsTrans (Nat × Node) (fun a b => a.1 ≤ b.1) :=
    ⟨fun a b c hab hbc => le_trans hab hbc⟩
  exact List.Sorted.insertionSort_eq (List.sorted_insertionSort _ l)

theorem canonNode_mk (cs : List (Nat × Node)) (l : Bool) (v : Option Nat) :
    canonNode (Node.mk cs l v) = Node.mk (sortedChildren (canonList cs)) l v :=
  rfl

theorem canonNode_childless (l : Bool) (v : Option Nat) :
    canonNode (Node.mk [] l v) = Node.mk [] l v := rfl

theorem canonNode_is_leaf (n : Node) : (canonNode n).is_leaf = n.is_leaf := by
  match n with
  | .mk cs l v => rfl

theorem canonNode_value (n : Node) : (canonNode n).value = n.value := by
  match n with
  | .mk cs l v => rfl

theorem canonNode_children (n : Node) :
    (canonNode n).children = sortedChildren (canonList n.children) := by
  match n with
  | .mk cs l v => rfl

theorem isEmpty_eq_length (l : List (Nat × Node)) :
    l.isEmpty = decide (l.length = 0) := by
  cases l <;> rfl

theorem canonNode_children_isEmpty (n : Node) :
    (canonNode n).children.isEmpty = n.children.isEmpty := by
  rw [isEmpty_eq_length, isEmpty_eq_length, canonNode_children,
    sortedChildren_length, canonList_length]

theorem childMask_canonList (l : List (Nat × Node)) :
    childMask (canonList l) = childMask l := by
  induction l with
  | nil => rfl
  | cons p rest ih =>
    obtain ⟨k, c⟩ := p
    simp only [canonList, childMask, ih]
    simp only [canonNode_children_isEmpty]

theorem leafMask_canonList (l : List (Nat × Node)) :
    leafMask (canonList l) = leafMask l := by
  induction l with
  | nil => rfl
  | cons p rest ih =>
    obtain ⟨k, c⟩ := p
    simp only [canonList, leafMask, ih]
    simp only [canonNode_is_leaf]

theorem leafVals_canonList (l : List (Nat × Node)) :
    leafVals (canonList l) = leafVals l := by
  induction l with
  | nil => rfl
  | cons p rest ih =>
    obtain ⟨k, c⟩ := p
    simp only [canonList, leafVals, List.filter_cons] at ih ⊢
    by_cases h : c.is_leaf
    · simp [canonNode_is_leaf, canonNode_value, h, ih]
    · simp [canonNode_is_leaf, h, ih]

theorem innerChildren_canonList (l : List (Nat × Node)) :
    innerChildren (canonList l) = (innerChildren l).map canonNode := by
  induction l with
  | nil => rfl
  | cons p rest ih =>
    obtain ⟨k, c⟩ := p
    simp only [canonList, innerChildren, List.filter_cons] at ih ⊢
    by_cases h : c.children.isEmpty
    · simp [canonNode_children_isEmpty, h, ih]
    · simp [canonNode_children_isEmpty, h, ih]

theorem isEmpty_map_canon (l : List Node) :
    (l.map canonNode).isEmpty = l.isEmpty := by
  cases l <;> rfl

theorem buildRec_canon (n : Node) (st : SerState) :
    buildRec (canonNode n) st =
      (canonRec (buildRec n st).1, (buildRec n st).2.1,
        (buildRec n st).2.2.map canonNode) := by
  match n with
  | .mk cs isLeaf value =>
    simp only [buildRec, canonRec, canonNode_children, children_mk,
      sortedChildren_idem, sortedChildren_canonList, childMask_canonList,
      leafMask_canonList, leafVals_canonList, innerChildren_canonList,
      isEmpty_map_canon, List.length_map]

theorem serLayer_canon (L : List Node) (st : SerState) :
    serLayer (L.map canonNode) st =
      ((serLayer L st).1.map canonRec, (serLayer L st).2.1,
        (serLayer L st).2.2.map canonNode) := by
  induction L generalizing st with
  | nil => rfl
  | cons n rest ih =>
    simp only [List.map_cons, serLayer, buildRec_canon, ih, List.map_append]

theorem serAll_canon (L : List Node) (st : SerState) :
    serAll (L.map canonNode) st = (serAll L st).map canonRec := by
  match L with
  | [] =>
    simp only [List.map_nil]
    rw [serAll]
    simp
  | n :: rest =>
    have hsl := serLayer_canon (n :: rest) st
    rw [List.map_cons] at hsl
    rw [List.map_cons, serAll]
    conv_rhs => rw [serAll]
    rw [hsl]
    dsimp only
    rw [serAll_canon (serLayer (n :: rest) st).2.2 (serLayer (n :: rest) st).2.1,
      List.map_append]
  termination_by layerSize L
  decreasing_by
    have h := serLayer_next_size (n :: rest) st
    simp only [List.length_cons] at h
    simp only [layerSize] at *
    omega

theorem encodeRec_canonRec (r : NodeRec) : encodeRec (canonRec r) = encodeRec r :=
  rfl

theorem leafVals_canonNode (m : Node) :
    leafVals (sortedChildren (canonNode m).children) =
      leafVals (sortedChildren m.children) := by
  rw [canonNode_children, sortedChildren_idem, sortedChildren_canonList,
    leafVals_canonList]

theorem flatVals_canon (R : List NodeRec) :
    flatVals (R.map canonRec) = flatVals R := by
  induction R with
  | nil => rfl
  | cons r rest ih =>
    simp only [List.map_cons, flatVals, ih]
    rw [show (canonRec r).node = canonNode r.node from rfl, leafVals_canonNode]

theorem map_map_pair (f g : Nat × Node → Nat × Node)
    (l : List (Nat × Node)) :
    (l.map f).map g = l.map (fun x => g (f x)) := by
  induction l with
  | nil => rfl
  | cons a rest ih => simp [ih]

theorem nodeSize_of_mem (cs : List (Nat × Node)) (kc : Nat × Node)
    (h : kc ∈ cs) : nodeSize kc.2 ≤ listSize cs := by
  induction cs with
  | nil => simp at h
  | cons p rest ih =>
    obtain ⟨k, c⟩ := p
    rcases List.mem_cons.1 h with rfl | hm
    · simp only [listSize]
      omega
    · have := ih hm
      simp only [listSize]
      omega

theorem invNode_leaf_some (m : Node) (h : invNode m = true)
    (hl : m.is_leaf = true) : m.value.isSome = true := by
  match m with
  | .mk cs isLeaf v =>
    simp only [is_leaf_mk] at hl
    subst hl
    simp only [invNode, Bool.and_eq_true] at h
    have h1 := h.1.1.1
    simp only [Bool.not_true, Bool.false_or, Bool.and_eq_true] at h1
    simpa using h1.2

theorem invList_of_invNode (cs : List (Nat × Node)) (l : Bool) (v : Option Nat)
    (h : invNode (Node.mk cs l v) = true) : invList cs = true := by
  simp only [invNode, Bool.and_eq_true] at h
  exact h.2

theorem pruneLeaf_some_of_inv (cs : List (Nat × Node)) (h : invList cs = true) :
    ∀ kc ∈ cs, (pruneNode kc.2).2 = true →
      ((pruneNode kc.2).1.value).isSome = true := by
  intro kc hm hp
  have hc : invNode kc.2 = true := invList_mem cs kc h hm
  have hpi : invNode (pruneNode kc.2).1 = true := invNode_pruneNode _ hc
  have hl : (pruneNode kc.2).1.is_leaf = true := by
    rw [← pruneNode_snd]
    exact hp
  exact invNode_leaf_some _ hpi hl

theorem pruneList_all_some (l : List (Nat × Node)) (v : Nat)
    (h : ∀ kc ∈ l, (pruneNode kc.2).2 = true ∧
      (pruneNode kc.2).1.value = some v) :
    (pruneList l true (some v)).2 = (true, some v) := by
  induction l with
  | nil => rfl
  | cons p rest ih =>
    obtain ⟨b, c⟩ := p
    obtain ⟨hp, hv⟩ := h (b, c) (by simp)
    simp only [pruneList, hp, hv, Bool.not_true, Bool.false_eq_true, if_false,
      if_true, ne_eq, not_true_eq_false]
    exact ih (fun kc hm => h kc (by simp [hm]))

theorem pruneList_collapse (l : List (Nat × Node)) (v : Nat) (hne : l ≠ [])
    (h : ∀ kc ∈ l, (pruneNode kc.2).2 = true ∧
      (pruneNode kc.2).1.value = some v) :
    (pruneList l true none).2 = (true, some v) := by
  match l with
  | [] => exact absurd rfl hne
  | (b, c) :: rest =>
    obtain ⟨hp, hv⟩ := h (b, c) (by simp)
    simp only [pruneList, hp, hv, Bool.not_true, Bool.false_eq_true, if_false]
    exact pruneList_all_some rest v (fun kc hm => h kc (by simp [hm]))

theorem pruneNode_canon_bound (k : Nat) : ∀ t : Node, nodeSize t ≤ k →
    invNode t = true →
    pruneNode (canonNode t) = (canonNode (pruneNode t).1, (pruneNode t).2) := by
  induction k with
  | zero =>
    intro t h _
    match t with
    | .mk cs l v => simp [nodeSize] at h
  | succ k ih =>
    intro t hsz hinv
    match t with
    | .mk cs isLeaf value =>
    have hil : invList cs = true := invList_of_invNode cs isLeaf value hinv
    have hch : ∀ kc ∈ cs, pruneNode (canonNode kc.2) =
        (canonNode (pruneNode kc.2).1, (pruneNode kc.2).2) := by
      intro kc hm
      apply ih
      · have h1 := nodeSize_of_mem cs kc hm
        simp only [nodeSize] at hsz
        omega
      · exact invList_mem cs kc hil hm
    by_cases hemp : cs.isEmpty = true
    · have hnil : cs = [] := by
        cases cs with
        | nil => rfl
        | cons a l => simp at hemp
      subst hnil
      rfl
    · have hempf : cs.isEmpty = false := by simpa using hemp
      have hcsne : cs ≠ [] := by
        intro h
        rw [h] at hempf
        simp at hempf
      have hDlen : (sortedChildren (canonList cs)).length = cs.length := by
        rw [sortedChildren_length, canonList_length]
      have hDempf : (sortedChildren (canonList cs)).isEmpty = false := by
        rw [isEmpty_eq_length, hDlen, ← isEmpty_eq_length, hempf]
      have hDne : sortedChildren (canonList cs) ≠ [] := by
        intro h
        rw [h] at hDempf
        simp at hDempf
      have hmemD1 : ∀ kc' ∈ sortedChildren (canonList cs),
          ∃ kc ∈ cs, kc' = (kc.1, canonNode kc.2) := by
        intro kc' h
        rw [mem_sortedChildren, canonList_eq_map] at h
        obtain ⟨kc, hkc, heq⟩ := List.mem_map.1 h
        exact ⟨kc, hkc, heq.symm⟩
      have hmemD2 : ∀ kc ∈ cs,
          (kc.1, canonNode kc.2) ∈ sortedChildren (canonList cs) := by
        intro kc hkc
        rw [mem_sortedChildren, canonList_eq_map]
        exact List.mem_map.2 ⟨kc, hkc, rfl⟩
      rw [canonNode_mk]
      simp only [pruneNode, hempf, hDempf, Bool.false_eq_true, if_false, hDlen]
      by_cases hcol : ((pruneList cs (cs.length == 256) none).2.1 &&
          ((pruneList cs (cs.length == 256) none).2.2).isSome) = true
      · have hcol' := hcol
        rw [Bool.and_eq_true] at hcol'
        obtain ⟨hA, hB⟩ := hcol'
        obtain ⟨hall, hleafs⟩ := pruneList_true cs _ none hA
        rw [hall] at hA hB ⊢
        obtain ⟨v₀, hv₀⟩ := Option.isSome_iff_exists.1 hB
        have hvals := (pruneList_value cs none v₀
          (pruneLeaf_some_of_inv cs hil) hA hv₀).1
        have hDall : ∀ kc' ∈ sortedChildren (canonList cs),
            (pruneNode kc'.2).2 = true ∧
            (pruneNode kc'.2).1.value = some v₀ := by
          intro kc' hk
          obtain ⟨kc, hkc, rfl⟩ := hmemD1 kc' hk
          dsimp only
          rw [hch kc hkc]
          dsimp only
          refine ⟨hleafs kc hkc, ?_⟩
          rw [canonNode_value]
          exact hvals kc hkc
        have hr2 := pruneList_collapse (sortedChildren (canonList cs)) v₀
          hDne hDall
        rw [hr2, hA, hv₀]
        simp [canonNode_childless]
      · have hcolf : ((pruneList cs (cs.length == 256) none).2.1 &&
            ((pruneList cs (cs.length == 256) none).2.2).isSome) = false := by
          simpa using hcol
        have hcolD : ((pruneList (sortedChildren (canonList cs))
              (cs.length == 256) none).2.1 &&
            ((pruneList (sortedChildren (canonList cs))
              (cs.length == 256) none).2.2).isSome) = false := by
          by_contra hcc
          have hcc' : ((pruneList (sortedChildren (canonList cs))
                (cs.length == 256) none).2.1 &&
              ((pruneList (sortedChildren (canonList cs))
                (cs.length == 256) none).2.2).isSome) = true := by
            cases h : ((pruneList (sortedChildren (canonList cs))
                (cs.length == 256) none).2.1 &&
              ((pruneList (sortedChildren (canonList cs))
                (cs.length == 256) none).2.2).isSome) with
            | false => exact absurd h hcc
            | true => rfl
          rw [Bool.and_eq_true] at hcc'
          obtain ⟨hA', hB'⟩ := hcc'
          obtain ⟨hall, hleafD⟩ := pruneList_true _ _ none hA'
          rw [hall] at hA' hB'
          obtain ⟨v₀, hv₀⟩ := Option.isSome_iff_exists.1 hB'
          have hivD : ∀ kc' ∈ sortedChildren (canonList cs),
              (pruneNode kc'.2).2 = true →
              ((pruneNode kc'.2).1.value).isSome = true := by
            intro kc' hk hp
            obtain ⟨kc, hkc, rfl⟩ := hmemD1 kc' hk
            dsimp only at hp ⊢
            rw [hch kc hkc] at hp ⊢
            dsimp only at hp ⊢
            rw [canonNode_value]
            exact pruneLeaf_some_of_inv cs hil kc hkc hp
          have hvalsD := (pruneList_value _ none v₀ hivD hA' hv₀).1
          have hcsAll : ∀ kc ∈ cs, (pruneNode kc.2).2 = true ∧
              (pruneNode kc.2).1.value = some v₀ := by
            intro kc hkc
            have hk' := hmemD2 kc hkc
            have h1 := hleafD _ hk'
            have h2 := hvalsD _ hk'
            dsimp only at h1 h2
            rw [hch kc hkc] at h1 h2
            dsimp only at h1 h2
            rw [canonNode_value] at h2
            exact ⟨h1, h2⟩
          have hrc := pruneList_collapse cs v₀ hcsne hcsAll
          rw [hall, hrc] at hcolf
          simp at hcolf
        rw [hcolf, hcolD]
        simp only [Bool.false_eq_true, if_false]
        have hkey : (pruneList (sortedChildren (canonList cs))
              (cs.length == 256) none).1 =
            sortedChildren (canonList (pruneList cs
              (cs.length == 256) none).1) := by
          rw [pruneList_fst, pruneList_fst, canonList_eq_map, canonList_eq_map,
            sortedChildren_map_fst (fun kc => (kc.1, canonNode kc.2))
              (fun x => rfl),
            map_map_pair, map_map_pair]
          dsimp only
          rw [sortedChildren_map_fst
            (fun kc => (kc.1, canonNode (pruneNode kc.2).1)) (fun x => rfl)]
          apply List.map_congr_left
          intro kc hkc
          rw [mem_sortedChildren] at hkc
          rw [hch kc hkc]
        rw [canonNode_mk, hkey]

theorem saveBytes_canon (t : Node) (hinv : invNode t = true) :
    saveBytes (canonNode t) = saveBytes t := by
  have hp : pruneNode (canonNode t) =
      (canonNode (pruneNode t).1, (pruneNode t).2) :=
    pruneNode_canon_bound (nodeSize t) t le_rfl hinv
  have hrecs : saveRecords (canonNode t) = (saveRecords t).map canonRec := by
    rw [saveRecords, saveRecords, recordsOf, recordsOf, hp]
    rw [show [canonNode (pruneNode t).1] = [(pruneNode t).1].map canonNode
      from rfl, serAll_canon]
  have hvals : saveValues (canonNode t) = saveValues t := by
    rw [saveValues, saveValues, hrecs, flatVals_canon]
  rw [saveBytes, saveBytes, hrecs, hvals, List.length_map, List.map_map]
  rw [show (saveRecords t).map (encodeRec ∘ canonRec) =
    (saveRecords t).map encodeRec from
    List.map_congr_left (fun r _ => encodeRec_canonRec r)]

/-- Claim C9 — building is deterministic.  In this embedding the builder is
a function of the call sequence, so two builders fed the same `add_cidr`
calls in the same order hold literally the same tree and run-to-run
equality of `save`'s bytes is definitional; the substantive content of the
claim is its independence clause: the serialised artifact — header, node
array and value table — depends only on the children maps viewed
extensionally, never on the insertion order inside each node's dict.
Stated here: any two well-formed trees with the same canonical form
(`canonNode` rewrites every children mapping in ascending key order)
serialise to byte-identical output. -/
theorem C9_save_insertion_order_independent (t1 t2 : Node)
    (h1 : invNode t1 = true) (h2 : invNode t2 = true)
    (hc : canonNode t1 = canonNode t2) :
    saveBytes t1 = saveBytes t2 := by
  rw [← saveBytes_canon t1 h1, hc, saveBytes_canon t2 h2]

/-- Witness for C9: two trees holding the children `1 ↦ leaf 5` and
`2 ↦ leaf 6` in opposite insertion orders serialise identically. -/
theorem C9_save_insertion_order_independent_witness :
    invNode (Node.mk [(1, Node.mk [] true (some 5)),
      (2, Node.mk [] true (some 6))] false none) = true ∧
    invNode (Node.mk [(2, Node.mk [] true (some 6)),
      (1, Node.mk [] true (some 5))] false none) = true ∧
    canonNode (Node.mk [(1, Node.mk [] true (some 5)),
        (2, Node.mk [] true (some 6))] false none) =
      canonNode (Node.mk [(2, Node.mk [] true (some 6)),
        (1, Node.mk [] true (some 5))] false none) ∧
    saveBytes (Node.mk [(1, Node.mk [] true (some 5)),
        (2, Node.mk [] true (some 6))] false none) =
      saveBytes (Node.mk [(2, Node.mk [] true (some 6)),
        (1, Node.mk [] true (some 5))] false none) :=
  ⟨by decide, by decide, by rfl,
    C9_save_insertion_order_independent _ _ (by decide) (by decide) (by rfl)⟩

end Poptrie
